import Mathlib

/-!
Verification of the data-indexing engine and interaction state machine of the
Comedy Bang Bang Universe Explorer (files `src/index.js` and its variant
`src/unnamed/part_000`).

The JavaScript source is shallowly embedded: numbers that are always finite
are modelled as `Int`, `Nat` or `ℚ`; the one place where JavaScript division
can produce `Infinity`/`NaN` (the `characters_per_guest` ratio) is modelled by
the inductive type `JSNum`; JavaScript `Map`s are modelled as insertion-ordered
association lists; the host date parser is abstracted as a parameter
`pd : String → Option Int` returning a timestamp (the `new Date`/`isNaN` check
of `parseDate`); `Array.prototype.sort`, which is stable per the ECMAScript
specification, is modelled by `List.insertionSort` (a stable sort).
-/

/-- JavaScript numbers as they arise in this program: a finite rational,
positive infinity, negative infinity, or NaN.  Only the operations the
program performs are defined. -/
inductive JSNum where
  | fin : ℚ → JSNum
  | inf : JSNum
  | negInf : JSNum
  | nan : JSNum
deriving DecidableEq, Repr

/-- JavaScript subtraction on `JSNum`. -/
def JSNum.sub : JSNum → JSNum → JSNum
  | .fin a, .fin b => .fin (a - b)
  | .fin _, .inf => .negInf
  | .fin _, .negInf => .inf
  | .inf, .fin _ => .inf
  | .negInf, .fin _ => .negInf
  | .inf, .negInf => .inf
  | .negInf, .inf => .negInf
  | .inf, .inf => .nan
  | .negInf, .negInf => .nan
  | .nan, _ => .nan
  | _, .nan => .nan

/-- JavaScript multiplication on `JSNum`. -/
def JSNum.mul : JSNum → JSNum → JSNum
  | .fin a, .fin b => .fin (a * b)
  | .inf, .fin b => if b > 0 then .inf else if b < 0 then .negInf else .nan
  | .fin a, .inf => if a > 0 then .inf else if a < 0 then .negInf else .nan
  | .negInf, .fin b => if b > 0 then .negInf else if b < 0 then .inf else .nan
  | .fin a, .negInf => if a > 0 then .negInf else if a < 0 then .inf else .nan
  | .inf, .inf => .inf
  | .inf, .negInf => .negInf
  | .negInf, .inf => .negInf
  | .negInf, .negInf => .inf
  | .nan, _ => .nan
  | _, .nan => .nan

/-- JavaScript division on `JSNum`. -/
def JSNum.div : JSNum → JSNum → JSNum
  | .fin a, .fin b =>
      if b = 0 then (if a = 0 then .nan else if a > 0 then .inf else .negInf)
      else .fin (a / b)
  | .inf, .fin b => if b < 0 then .negInf else .inf
  | .negInf, .fin b => if b < 0 then .inf else .negInf
  | .fin _, .inf => .fin 0
  | .fin _, .negInf => .fin 0
  | .inf, .inf => .nan
  | .inf, .negInf => .nan
  | .negInf, .inf => .nan
  | .negInf, .negInf => .nan
  | .nan, _ => .nan
  | _, .nan => .nan

/-- JavaScript `Math.max` on `JSNum` (`NaN` is absorbing). -/
def JSNum.jsMax : JSNum → JSNum → JSNum
  | .fin a, .fin b => .fin (max a b)
  | .inf, .fin _ => .inf
  | .fin _, .inf => .inf
  | .negInf, x => match x with | .nan => .nan | y => y
  | x, .negInf => match x with | .nan => .nan | y => y
  | .inf, .inf => .inf
  | .nan, _ => .nan
  | _, .nan => .nan

/-- JavaScript division of two natural counts, `c / g`: `NaN` on `0/0`,
`Infinity` on `c/0` with `c > 0`, otherwise the exact rational. -/
def jsDivNat (c g : Nat) : JSNum :=
  if g = 0 then (if c = 0 then .nan else .inf) else .fin ((c : ℚ) / (g : ℚ))

/-- Word character in the sense of the regex `\b` boundary without the `u`
flag: `[A-Za-z0-9_]`. -/
def isWordChar (c : Char) : Bool :=
  c.isAlpha || c.isDigit || c == '_'

/-- Embedding of the regex test `/^[0-9]+(\.[0-9]+)?$/.test(s)`: one or more
digits, optionally followed by a dot and one or more digits. -/
def isNumericPattern (s : String) : Bool :=
  let cs := s.toList
  let ds := cs.takeWhile Char.isDigit
  let rest := cs.dropWhile Char.isDigit
  decide (ds ≠ []) &&
    (rest.isEmpty ||
      (rest.head? == some '.' && decide (rest.tail ≠ []) && rest.tail.all Char.isDigit))

/-- Does `cs` start with `sub`? -/
def startsWithSeq (sub : List Char) (cs : List Char) : Bool :=
  match sub, cs with
  | [], _ => true
  | _ :: _, [] => false
  | a :: as, b :: bs => a == b && startsWithSeq as bs

/-- Word-boundary test against an adjacent character (`none` at a string
edge): a boundary exists iff the adjacent character is absent or not a word
character. -/
def boundaryOk (o : Option Char) : Bool :=
  match o with
  | none => true
  | some c => !isWordChar c

/-- Does the word `live` start right here (chars already lowercased), with a
word boundary on both sides?  `prev` is the character just before the current
position (`none` at the start of the string). -/
def liveAt (prev : Option Char) (cs : List Char) : Bool :=
  startsWithSeq ['l', 'i', 'v', 'e'] cs && boundaryOk prev && boundaryOk (cs.drop 4).head?

/-- Scan for a standalone occurrence of `live` anywhere in `cs`. -/
def searchLive (prev : Option Char) (cs : List Char) : Bool :=
  liveAt prev cs ||
    match cs with
    | [] => false
    | c :: rest => searchLive (some c) rest

/-- Embedding of the regex test `/\blive\b/i.test(title)`: the title,
lowercased, contains `live` delimited by word boundaries. -/
def hasLiveWord (title : String) : Bool :=
  searchLive none (title.toList.map Char.toLower)

/-- Embedding of `isLiveEpisode` (src/index.js lines 86-98, identical in
src/unnamed/part_000 lines 99-111).  `num` is the resolved
`episode.number || episode.n` value: `none` models an absent field, and the
JavaScript truthiness guard `num && ...` makes both `none` and the empty
string skip the non-numeric-number check. -/
def isLiveEpisode (num : Option String) (title : String) : Bool :=
  let numTruthy := match num with | none => false | some s => decide (s ≠ "")
  let hasNonNumericNumber := numTruthy && !isNumericPattern (num.getD "")
  let hasLiveInTitle := hasLiveWord title
  hasNonNumericNumber || hasLiveInTitle

/-- Declarative reading of the pure integer-or-decimal pattern
`^[0-9]+(\.[0-9]+)?$`: the character list is a nonempty run of digits,
optionally followed by a dot and another nonempty run of digits. -/
def NumericShape (cs : List Char) : Prop :=
  (cs ≠ [] ∧ ∀ c ∈ cs, c.isDigit) ∨
  (∃ ds tl, ds ≠ [] ∧ (∀ c ∈ ds, c.isDigit) ∧ tl ≠ [] ∧ (∀ c ∈ tl, c.isDigit) ∧
    cs = ds ++ '.' :: tl)

/-- Declarative reading of `/\blive\b/i`: the lowercased character list of
the title splits as `pre ++ [l, i, v, e] ++ post` where the characters
adjacent to the match (if any) are not word characters. -/
def ContainsLiveWord (title : String) : Prop :=
  ∃ pre post, title.toList.map Char.toLower = pre ++ ['l', 'i', 'v', 'e'] ++ post ∧
    (∀ c, pre.getLast? = some c → isWordChar c = false) ∧
    (∀ c, post.head? = some c → isWordChar c = false)

/-- Raw episode record as found in the data file: abbreviated keys
`t`/`n`/`d`/`g`/`c`/`i`, with optional fields modelled as `Option`. -/
structure RawEpisode where
  t : String
  n : Option String
  d : String
  g : Option (List String)
  c : Option (List String)
  i : Option String
deriving DecidableEq, Repr

/-- Episode after the map stage of `loadData` (src/index.js lines 142-152):
expanded keys, parsed date, defaulted lists — before sorting assigns `idx`
and the derived counts. -/
structure Ep0 where
  title : String
  number : Option String
  date : Int
  guests : List String
  characters : List String
  imageUrl : Option String
deriving DecidableEq, Repr

/-- Fully normalized episode with the computed properties assigned by the
`forEach` at src/index.js lines 155-162.  The `year`/`week` fields and the
year-bucketing are omitted: no claim concerns them. -/
structure Episode extends Ep0 where
  idx : Nat
  num_guests : Nat
  num_characters : Nat
  characters_per_guest : JSNum
deriving DecidableEq, Repr

/-- The map stage for one raw record: `none` when the date string fails to
parse (the `parseDate`/`isNaN` check), in which case the subsequent
`.filter(e => e.date)` drops the record (a successfully parsed `Date` object
is always truthy). -/
def normRecord (pd : String → Option Int) (e : RawEpisode) : Option Ep0 :=
  (pd e.d).map fun dt =>
    { title := e.t, number := e.n, date := dt, guests := e.g.getD [], characters := e.c.getD [], imageUrl := e.i }

/-- Comparison used by `.sort((a, b) => a.date - b.date)`. -/
def dateLe (a b : Ep0) : Prop := a.date ≤ b.date

instance : DecidableRel dateLe := fun a b => inferInstanceAs (Decidable (a.date ≤ b.date))

/-- Assignment of the computed properties to the episode at position `i` of
the sorted sequence (src/index.js lines 155-162). -/
def enrich (i : Nat) (e : Ep0) : Episode :=
  { e with
    idx := i,
    num_guests := e.guests.length,
    num_characters := e.characters.length,
    characters_per_guest := jsDivNat e.characters.length e.guests.length }

/-- The Record Normalizer (`loadData`, src/index.js lines 142-162): map raw
records, drop unparseable dates, stable-sort by parsed date ascending, then
assign `idx` and the derived counts by position. -/
def normalizeEpisodes (pd : String → Option Int) (raws : List RawEpisode) : List Episode :=
  (((raws.filterMap (normRecord pd)).insertionSort dateLe).enum).map fun p => enrich p.1 p.2

/-- Guest record in the guest lookup map (src/index.js lines 176-181), minus
the `imageUrl` attached later (no claim concerns it). -/
structure EntityRec where
  name : String
  episodes : List Nat
  firstIdx : Nat
  lastIdx : Nat
deriving DecidableEq, Repr

/-- Character record (src/index.js lines 191-197): a guest record plus the
set of guests credited alongside the character, modelled as an
insertion-ordered duplicate-free list (a JavaScript `Set`). -/
structure CharRec extends EntityRec where
  guests : List String
deriving DecidableEq, Repr

/-- Lookup in an insertion-ordered association list (JavaScript `Map.get`). -/
def emapFind {A : Type} (m : List (String × A)) (k : String) : Option A :=
  (m.find? fun p => p.1 == k).map fun p => p.2

/-- Update every entry with the given key in place (JavaScript `Map` entries
are mutated in place, preserving insertion order). -/
def emapUpdate {A : Type} (m : List (String × A)) (k : String) (f : A → A) :
    List (String × A) :=
  m.map fun p => if p.1 == k then (p.1, f p.2) else p

/-- Processing one guest name of the episode at position `idx`
(src/index.js lines 173-186): create the entry on first sight, then push
`idx` and update `lastIdx`. -/
def guestStep (idx : Nat) (m : List (String × EntityRec)) (g : String) :
    List (String × EntityRec) :=
  let fresh : EntityRec := { name := g, episodes := [], firstIdx := idx, lastIdx := idx }
  let m' := if (emapFind m g).isSome then m else m ++ [(g, fresh)]
  emapUpdate m' g fun r => { r with episodes := r.episodes ++ [idx], lastIdx := idx }

/-- JavaScript `Set.add`: append if not already present. -/
def setAdd (s : List String) (g : String) : List String :=
  if g ∈ s then s else s ++ [g]

/-- Processing one character name of the episode at position `idx`
(src/index.js lines 189-205): like `guestStep`, plus unioning all guest
names of the episode into the character's `guests` set. -/
def charStep (epGuests : List String) (idx : Nat) (m : List (String × CharRec))
    (c : String) : List (String × CharRec) :=
  let fresh : CharRec :=
    { name := c, episodes := [], firstIdx := idx, lastIdx := idx, guests := [] }
  let m' := if (emapFind m c).isSome then m else m ++ [(c, fresh)]
  emapUpdate m' c fun r =>
    { r with
      episodes := r.episodes ++ [idx], lastIdx := idx,
      guests := epGuests.foldl setAdd r.guests }

/-- The guest-map construction loop of `loadData` (src/index.js
lines 171-206), with the running episode position as an explicit counter. -/
def buildGuestMapAux (idx : Nat) (eps : List Episode)
    (m : List (String × EntityRec)) : List (String × EntityRec) :=
  match eps with
  | [] => m
  | ep :: rest => buildGuestMapAux (idx + 1) rest (ep.guests.foldl (guestStep idx) m)

/-- The Cross-Reference Indexer's guest index. -/
def buildGuestMap (eps : List Episode) : List (String × EntityRec) :=
  buildGuestMapAux 0 eps []

/-- The character-map construction loop of `loadData`. -/
def buildCharacterMapAux (idx : Nat) (eps : List Episode)
    (m : List (String × CharRec)) : List (String × CharRec) :=
  match eps with
  | [] => m
  | ep :: rest =>
      buildCharacterMapAux (idx + 1) rest (ep.characters.foldl (charStep ep.guests idx) m)

/-- The Cross-Reference Indexer's character index. -/
def buildCharacterMap (eps : List Episode) : List (String × CharRec) :=
  buildCharacterMapAux 0 eps []

/-- The per-episode aggregate maxima of `loadData`
(src/unnamed/part_000 lines 270-291): the year-bucket maxima are omitted (no
claim concerns them). -/
structure AggStats where
  maxGuests : Nat
  maxCharacters : Nat
  maxCharactersPerGuest : JSNum
deriving DecidableEq, Repr

/-- One step of the `episodes.forEach` at src/unnamed/part_000 lines 285-291:
`maxCharactersPerGuest` is updated only when `ep.num_guests > 0`. -/
def statsStep (s : AggStats) (ep : Episode) : AggStats :=
  { maxGuests := max s.maxGuests ep.num_guests
    maxCharacters := max s.maxCharacters ep.num_characters
    maxCharactersPerGuest :=
      if ep.num_guests > 0 then s.maxCharactersPerGuest.jsMax ep.characters_per_guest
      else s.maxCharactersPerGuest }

/-- The Aggregate Statistics Calculator over the normalized corpus, starting
from the zero-initialised stats object. -/
def computeMaxStats (eps : List Episode) : AggStats :=
  eps.foldl statsStep { maxGuests := 0, maxCharacters := 0, maxCharactersPerGuest := .fin 0 }

/-- Embedding of `getEpisodeBaseColor` (src/unnamed/part_000 lines 121-130),
modelling the lightness component of the returned `hsl(210, 50%, L%)` string:
`L = 85 - (value / maxValue) * 40`, with the `maxGuests === 0` guard
returning the fixed default lightness 60. -/
def getEpisodeBaseColor (v : JSNum) (maxV : JSNum) : JSNum :=
  if maxV = .fin 0 then .fin 60
  else (JSNum.fin 85).sub ((v.div maxV).mul (.fin 40))

/-- Color-scaling mode of the timeline (src/unnamed/part_000 line 355). -/
inductive ColorMode where
  | guests
  | characters
  | charsPerGuest
deriving DecidableEq, Repr

/-- The base-color switch of the Timeline cell renderer
(src/unnamed/part_000 lines 574-584), as the lightness fed to
`getEpisodeBaseColor` for a non-highlighted, non-live, non-pinned cell. -/
def cellBaseLightness (mode : ColorMode) (ep : Episode) (stats : AggStats) : JSNum :=
  match mode with
  | .characters => getEpisodeBaseColor (.fin ep.num_characters) (.fin stats.maxCharacters)
  | .charsPerGuest => getEpisodeBaseColor ep.characters_per_guest stats.maxCharactersPerGuest
  | .guests => getEpisodeBaseColor (.fin ep.num_guests) (.fin stats.maxGuests)

/-- Entity kind: the `entityType` state, `guest` or `character`. -/
inductive EntityKind where
  | guest
  | character
deriving DecidableEq, Repr

/-- Sort keys of the entity list (`sortBy` state): `appearances`, `first`,
`last`, `name`. -/
inductive SortKey where
  | appearances
  | first
  | last
  | name
deriving DecidableEq, Repr

/-- Embedding of `String.prototype.localeCompare` with the host locale fixed
to lexicographic character order. -/
def localeCompare (a b : String) : Int :=
  if a < b then -1 else if b < a then 1 else 0

/-- The comparator passed to `entities.sort(...)` for each sort key
(src/index.js lines 429-440). -/
def entityCmp (k : SortKey) (a b : EntityRec) : Int :=
  match k with
  | .appearances => (b.episodes.length : Int) - (a.episodes.length : Int)
  | .first => (a.firstIdx : Int) - (b.firstIdx : Int)
  | .last => (b.lastIdx : Int) - (a.lastIdx : Int)
  | .name => localeCompare a.name b.name

/-- The ordering a JavaScript stable sort realises for a consistent
comparator: `a` may precede `b` iff the comparator does not mandate `b`
before `a`. -/
def entityLe (k : SortKey) (a b : EntityRec) : Prop := entityCmp k a b ≤ 0

instance (k : SortKey) : DecidableRel (entityLe k) :=
  fun a b => inferInstanceAs (Decidable (entityCmp k a b ≤ 0))

/-- Does `cs` contain `sub` as a contiguous subsequence?  Embeds
`String.prototype.includes`. -/
def containsSeq (sub : List Char) (cs : List Char) : Bool :=
  startsWithSeq sub cs ||
    match cs with
    | [] => false
    | _ :: rest => containsSeq sub rest

/-- Embedding of `e.name.toLowerCase().includes(q)` with
`q = searchQuery.toLowerCase()`. -/
def nameMatches (searchQuery : String) (e : EntityRec) : Bool :=
  containsSeq (searchQuery.toList.map Char.toLower) (e.name.toList.map Char.toLower)

/-- The Entity Query Engine (`sortedEntities`, src/index.js lines 417-441):
pick the map for the kind, filter by the search query when nonempty, and
stable-sort by the selected comparator.  For characters the sort and filter
only read the `EntityRec` fields, so the records are projected. -/
def sortedEntities (gm : List (String × EntityRec)) (cm : List (String × CharRec))
    (kind : EntityKind) (searchQuery : String) (sortBy : SortKey) : List EntityRec :=
  let entities : List EntityRec := match kind with
    | .guest => gm.map fun p => p.2
    | .character => cm.map fun p => p.2.toEntityRec
  let entities := if searchQuery ≠ "" then entities.filter (nameMatches searchQuery)
                  else entities
  entities.insertionSort (entityLe sortBy)

/-- The debounced hover machinery (`setHoveredEpisodeDebounced`,
src/index.js lines 381-389) run against a virtual clock.  Input: hover
events `(time, episodeIndex)` in time order, plus the currently pending
timer `(fireTime, episodeIndex)` if any.  Scheduling clears any pending
timer (`clearTimeout`) and sets a new one `delay` units ahead; a pending
timer due strictly before-or-at the next event fires first.  Output: the
`setHoveredEpisode` updates that actually fire, as `(fireTime, index)`
pairs; after the last event silence lets any pending timer fire. -/
def debounceRun (delay : Nat) (events : List (Nat × Nat)) (pending : Option (Nat × Nat)) :
    List (Nat × Nat) :=
  match events with
  | [] =>
      match pending with
      | none => []
      | some p => [p]
  | (t, i) :: rest =>
      match pending with
      | some (ft, j) =>
          if ft ≤ t then (ft, j) :: debounceRun delay rest (some (t + delay, i))
          else debounceRun delay rest (some (t + delay, i))
      | none => debounceRun delay rest (some (t + delay, i))

/-- The interaction-state fields involved in entity selection. -/
structure UIState where
  selectedEntity : Option String
  entityType : EntityKind
deriving DecidableEq, Repr

/-- Click on an entity row of the entity list (src/index.js line 756,
src/unnamed/part_000 line 812): `setSelectedEntity(isSelected ? null :
entity.name)` — a toggle that leaves `entityType` unchanged. -/
def listItemClick (s : UIState) (name : String) : UIState :=
  { s with selectedEntity := if s.selectedEntity = some name then none else some name }

/-- Click on a guest/character chip of the episode summary (src/index.js
lines 675-678 and 701-704) or on a related-entity button (lines 946-950):
`setEntityType(kind); setSelectedEntity(name)` — no toggle. -/
def chipClick (s : UIState) (kind : EntityKind) (name : String) : UIState :=
  { s with entityType := kind, selectedEntity := some name }

/-- The cell-size formula of `updateCellSize` (src/index.js lines 336-344):
fixed overhead 32 + 40 + 30 = 102 pixels, gap 1, all at rational
precision. -/
def computeSize (containerWidth : ℚ) (maxEpisodesInYear : ℚ) : ℚ :=
  let availableWidth := containerWidth - 32 - 40 - 30
  (availableWidth - (maxEpisodesInYear - 1) * 1) / maxEpisodesInYear

/-- One run of `updateCellSize` (src/index.js lines 327-362) including the
effect's `!maxEpisodesInYear` guard (line 325) and the `containerWidth === 0`
guard: returns the new `cellSize` state.  All rejection paths return the
previous size unchanged; no error path exists. -/
def cellSizeStep (prev : ℚ) (containerWidth : ℚ) (maxEpisodesInYear : Nat) : ℚ :=
  if maxEpisodesInYear = 0 then prev
  else if containerWidth = 0 then prev
  else
    let size := computeSize containerWidth (maxEpisodesInYear : ℚ)
    if 4 ≤ size ∧ |size - prev| > 1 / 10 then size else prev

/-- Invariant of a fully processed entity record after `n` episodes: the
episode list starts at `firstIdx`, ends at `lastIdx`, is strictly ascending,
and mentions only positions below `n`. -/
def GoodRec (n : Nat) (p : String × EntityRec) : Prop :=
  p.2.episodes.head? = some p.2.firstIdx ∧
  p.2.episodes.getLast? = some p.2.lastIdx ∧
  List.Pairwise (· < ·) p.2.episodes ∧
  ∀ j ∈ p.2.episodes, j < n

/-- Invariant of an entity record in the middle of processing episode `n`,
where the names in `gs` are the ones of this episode not yet processed:
records whose key is still pending have not yet received the index `n`. -/
def MidRec (n : Nat) (gs : List String) (p : String × EntityRec) : Prop :=
  p.2.episodes.head? = some p.2.firstIdx ∧
  p.2.episodes.getLast? = some p.2.lastIdx ∧
  List.Pairwise (· < ·) p.2.episodes ∧
  (∀ j ∈ p.2.episodes, j ≤ n) ∧
  (p.1 ∈ gs → ∀ j ∈ p.2.episodes, j < n)

/-- The `GoodRec` invariant transported to character records. -/
def GoodRecC (n : Nat) (p : String × CharRec) : Prop :=
  GoodRec n (p.1, p.2.toEntityRec)

/-- The `MidRec` invariant transported to character records. -/
def MidRecC (n : Nat) (gs : List String) (p : String × CharRec) : Prop :=
  MidRec n gs (p.1, p.2.toEntityRec)

/-- Membership invariant of the character map relative to two abstract
history predicates: `A k i` says the past episodes put index `i` into
record `k`, and `B k g` says the past episodes put guest `g` into the
`guests` set of record `k`.  During episode `n`, the names in `done` are
the occurrences of this episode already processed. -/
def CharMemInv (epGuests : List String) (n : Nat) (A : String → Nat → Prop)
    (B : String → String → Prop) (done : List String)
    (m : List (String × CharRec)) : Prop :=
  (∀ p ∈ m,
    (∀ i, i ∈ p.2.episodes ↔ (A p.1 i ∨ (i = n ∧ p.1 ∈ done))) ∧
    (∀ g, g ∈ p.2.guests ↔ (B p.1 g ∨ (p.1 ∈ done ∧ g ∈ epGuests)))) ∧
  (∀ k, emapFind m k = none → (∀ i, ¬ A k i) ∧ (∀ g, ¬ B k g) ∧ k ∉ done)

/-- History predicate over the first `n` episodes of `eps`: index `i` was
recorded for character `k`. -/
def histEp (eps : List Episode) (n : Nat) (k : String) (i : Nat) : Prop :=
  ∃ h : i < eps.length, i < n ∧ k ∈ (eps.get ⟨i, h⟩).characters

/-- History predicate over the first `n` episodes of `eps`: guest `g` was
recorded for character `k`. -/
def histGuest (eps : List Episode) (n : Nat) (k : String) (g : String) : Prop :=
  ∃ i, ∃ h : i < eps.length, i < n ∧ k ∈ (eps.get ⟨i, h⟩).characters ∧
    g ∈ (eps.get ⟨i, h⟩).guests

/-- Concrete three-episode corpus used by the witnesses: guest `A` appears
in episodes 0 and 2, guest `B` in episode 1, character `X` in episodes 0
and 1. -/
def sampleEp1 : Episode :=
  { title := "e1", number := some "1", date := 0, guests := ["A"], characters := ["X"],
    imageUrl := none, idx := 0, num_guests := 1, num_characters := 1,
    characters_per_guest := .fin 1 }

/-- Second sample episode. -/
def sampleEp2 : Episode :=
  { title := "e2", number := some "2", date := 1, guests := ["B"], characters := ["X"],
    imageUrl := none, idx := 1, num_guests := 1, num_characters := 1,
    characters_per_guest := .fin 1 }

/-- Third sample episode. -/
def sampleEp3 : Episode :=
  { title := "e3", number := some "3", date := 2, guests := ["A"], characters := [],
    imageUrl := none, idx := 2, num_guests := 1, num_characters := 0,
    characters_per_guest := .fin 0 }

/-- The sample corpus. -/
def sampleEps : List Episode := [sampleEp1, sampleEp2, sampleEp3]

/-- Concrete date parser for the witnesses: three known date strings, with
ties between the second and third. -/
def samplePd : String → Option Int := fun s =>
  if s = "d0" then some 100 else if s = "d1" then some 50 else
  if s = "d2" then some 50 else none

/-- Concrete raw corpus for the witnesses: one unparseable date and a date
tie, plus a zero-guest episode with one character. -/
def sampleRaws : List RawEpisode :=
  [ { t := "A", n := some "1", d := "d0", g := some ["g"], c := none, i := none },
    { t := "B", n := some "2", d := "bad", g := none, c := none, i := none },
    { t := "C", n := some "3", d := "d1", g := none, c := some ["c"], i := none },
    { t := "D", n := some "4", d := "d2", g := none, c := none, i := none } ]

/-- The entity list the query engine starts from: the values of the map of
the selected kind, in insertion order. -/
def baseEntities (gm : List (String × EntityRec)) (cm : List (String × CharRec))
    (kind : EntityKind) : List EntityRec :=
  match kind with
  | .guest => gm.map fun p => p.2
  | .character => cm.map fun p => p.2.toEntityRec

/-- The effective search predicate: everything matches when the query is
empty, otherwise a case-insensitive substring test on the name. -/
def matchesSearch (sq : String) (e : EntityRec) : Bool :=
  sq == "" || nameMatches sq e

/-- Membership invariant of the character map between episodes: after the
first `n` episodes, every record lists exactly the indices where its
character occurs, its `guests` set is exactly the union of guest lists over
those episodes, and absent keys never occurred. -/
def CharMemBetween (eps : List Episode) (n : Nat) (m : List (String × CharRec)) : Prop :=
  (∀ p ∈ m,
    (∀ i, i ∈ p.2.episodes ↔ histEp eps n p.1 i) ∧
    (∀ g, g ∈ p.2.guests ↔ histGuest eps n p.1 g)) ∧
  (∀ k, emapFind m k = none →
    (∀ i, ¬ histEp eps n k i) ∧ (∀ g, ¬ histGuest eps n k g))

/-- Claim C9: for every prior cell size and every sizing input, if the
computed cell size is below 4px, the grid-size update is a no-op: the
previous cell size is retained (and the step function is total, so no error
is raised). -/
theorem gridSizeReject_spec (prev containerWidth : ℚ) (maxN : Nat)
    (h : computeSize containerWidth (maxN : ℚ) < 4) :
    cellSizeStep prev containerWidth maxN = prev := by
  simp only [cellSizeStep]
  split_ifs with h1 h2 h3
  · rfl
  · rfl
  · exact absurd h3.1 (not_le.mpr h)
  · rfl

/-- Witness for `gridSizeReject_spec`: a 200px container with 30 episodes in
the longest row computes size 2.3 < 4, and the previous size 11 is kept. -/
theorem gridSizeReject_spec_witness : cellSizeStep 11 200 30 = 11 :=
  gridSizeReject_spec 11 200 30 (by norm_num [computeSize])

/-- Claim C6 counterexample: clicking the already-selected guest chip in the
episode summary keeps it selected rather than clearing the selection, so the
toggle does not hold on every click path that selects an entity. -/
theorem entitySelect_claim_counterexample :
    (chipClick { selectedEntity := some "A", entityType := .guest } .guest "A").selectedEntity
        = some "A" ∧
    (chipClick { selectedEntity := some "A", entityType := .guest } .guest "A").selectedEntity
        ≠ none :=
  ⟨rfl, by decide⟩

/-- Claim C6 (amended): entity-list row clicks toggle the selection and
leave the entity kind unchanged, while episode-summary chip clicks and
related-entity clicks set the selection and force the kind unconditionally,
with no toggle. -/
theorem entitySelect_amended_spec :
    (∀ (s : UIState) (name : String),
       (listItemClick s name).selectedEntity =
         (if s.selectedEntity = some name then none else some name) ∧
       (listItemClick s name).entityType = s.entityType) ∧
    (∀ (s : UIState) (kind : EntityKind) (name : String),
       (chipClick s kind name).selectedEntity = some name ∧
       (chipClick s kind name).entityType = kind) :=
  ⟨fun _ _ => ⟨rfl, rfl⟩, fun _ _ _ => ⟨rfl, rfl⟩⟩

/-- Helper for the debounce claim: while a burst is in progress, the pending
timer set by the previous event never fires, and in the end only the last
event's timer does. -/
theorem debounceRun_pending_burst :
    ∀ (evs : List (Nat × Nat)) (tc ic t i : Nat),
      List.Chain' (fun a b : Nat × Nat => a.1 < b.1 ∧ b.1 < a.1 + 50) ((tc, ic) :: evs) →
      ((tc, ic) :: evs).getLast? = some (t, i) →
      debounceRun 50 evs (some (tc + 50, ic)) = [(t + 50, i)] := by
  intro evs
  induction evs with
  | nil =>
    intro tc ic t i _ hlast
    simp only [List.getLast?_singleton, Option.some_inj] at hlast
    injection hlast with h1 h2
    subst h1
    subst h2
    rfl
  | cons hd rest ih =>
    intro tc ic t i hchain hlast
    obtain ⟨t1, i1⟩ := hd
    have hrel := (List.chain'_cons.mp hchain).1
    show debounceRun 50 ((t1, i1) :: rest) (some (tc + 50, ic)) = _
    rw [debounceRun, if_neg (by omega)]
    exact ih t1 i1 t i (List.chain'_cons.mp hchain).2
      (by rw [← hlast, List.getLast?_cons_cons])

/-- Claim C5: scheduling a new hover while one is pending cancels the
pending timer and reschedules, and therefore a burst of hover events
(successive gaps strictly below the 50-unit delay) followed by silence fires
exactly one `setHoveredEpisode` update, 50 units after the last event,
carrying the last event's target. -/
theorem debounce_spec (events : List (Nat × Nat)) (t i : Nat)
    (hne : events ≠ [])
    (hburst : List.Chain' (fun a b : Nat × Nat => a.1 < b.1 ∧ b.1 < a.1 + 50) events)
    (hlast : events.getLast? = some (t, i)) :
    (∀ (t' i' : Nat) (rest : List (Nat × Nat)) (ft j : Nat), t' < ft →
        debounceRun 50 ((t', i') :: rest) (some (ft, j)) =
          debounceRun 50 rest (some (t' + 50, i'))) ∧
    debounceRun 50 events none = [(t + 50, i)] := by
  refine ⟨fun t' i' rest ft j hlt => ?_, ?_⟩
  · rw [debounceRun, if_neg (by omega)]
  · match events, hne, hburst, hlast with
    | (tc, ic) :: evs, _, hburst, hlast =>
      show debounceRun 50 ((tc, ic) :: evs) none = _
      rw [debounceRun]
      exact debounceRun_pending_burst evs tc ic t i hburst hlast

/-- Witness for `debounce_spec`: hover events at t = 0, 10, 20, 30 produce
exactly one update, at t = 80, carrying the t = 30 event's target. -/
theorem debounce_spec_witness :
    debounceRun 50 [(0, 10), (10, 11), (20, 12), (30, 13)] none = [(80, 13)] :=
  (debounce_spec [(0, 10), (10, 11), (20, 12), (30, 13)] 30 13 (by decide)
    (by norm_num [List.chain'_cons, List.chain'_singleton]) (by decide)).2

/-- A prefix test succeeds exactly when the list splits accordingly. -/
theorem startsWithSeq_iff (sub : List Char) :
    ∀ cs, startsWithSeq sub cs = true ↔ ∃ post, cs = sub ++ post := by
  induction sub with
  | nil => intro cs; simp [startsWithSeq]
  | cons a as ih =>
    intro cs
    cases cs with
    | nil =>
      simp only [startsWithSeq]
      constructor
      · intro h; cases h
      · rintro ⟨post, h⟩; cases h
    | cons b bs =>
      simp only [startsWithSeq, Bool.and_eq_true, beq_iff_eq, ih bs]
      constructor
      · rintro ⟨rfl, post, rfl⟩; exact ⟨post, rfl⟩
      · rintro ⟨post, h⟩
        injection h with h1 h2
        exact ⟨h1.symm, post, h2⟩

/-- The boundary test holds exactly when any adjacent character is not a
word character. -/
theorem boundaryOk_iff (o : Option Char) :
    boundaryOk o = true ↔ ∀ c, o = some c → isWordChar c = false := by
  cases o with
  | none => simp [boundaryOk]
  | some c => simp [boundaryOk]

/-- Characterization of a word-boundary-delimited match of `live` at the
current position. -/
theorem liveAt_iff (prev : Option Char) (cs : List Char) :
    liveAt prev cs = true ↔
      ∃ post, cs = ['l', 'i', 'v', 'e'] ++ post ∧
        (∀ c, prev = some c → isWordChar c = false) ∧
        (∀ c, post.head? = some c → isWordChar c = false) := by
  simp only [liveAt, Bool.and_eq_true, startsWithSeq_iff, boundaryOk_iff]
  constructor
  · rintro ⟨⟨⟨post, rfl⟩, hprev⟩, hpost⟩
    refine ⟨post, rfl, hprev, ?_⟩
    simpa using hpost
  · rintro ⟨post, rfl, hprev, hpost⟩
    refine ⟨⟨⟨post, rfl⟩, hprev⟩, ?_⟩
    simpa using hpost

/-- Shifting one character from the scanned list into the prefix does not
change the character adjacent to the left of a later match. -/
theorem getLast?_cons_or {α : Type} (l : List α) (c : α) (prev : Option α) :
    ((c :: l).getLast?).or prev = (l.getLast?).or (some c) := by
  cases l with
  | nil => rfl
  | cons d ds =>
    rw [List.getLast?_cons_cons]
    have : (d :: ds).getLast?.isSome := by
      rw [List.getLast?_isSome]
      exact List.cons_ne_nil d ds
    obtain ⟨x, hx⟩ := Option.isSome_iff_exists.mp this
    rw [hx]
    rfl

/-- Correctness of the scan: a standalone `live` is found exactly when the
list splits around it with word boundaries, where the character left of the
match is the last of the prefix, or `prev` when the prefix is empty. -/
theorem searchLive_iff :
    ∀ (cs : List Char) (prev : Option Char),
      searchLive prev cs = true ↔
        ∃ pre post, cs = pre ++ ['l', 'i', 'v', 'e'] ++ post ∧
          (∀ c, (pre.getLast?).or prev = some c → isWordChar c = false) ∧
          (∀ c, post.head? = some c → isWordChar c = false) := by
  intro cs
  induction cs with
  | nil =>
    intro prev
    rw [searchLive]
    simp only [liveAt, startsWithSeq, Bool.false_and, Bool.or_false]
    constructor
    · intro h; cases h
    · rintro ⟨pre, post, h, -, -⟩
      exact absurd h.symm (by simp)
  | cons c rest ih =>
    intro prev
    rw [searchLive, Bool.or_eq_true, liveAt_iff, ih (some c)]
    constructor
    · rintro (⟨post, heq, hprev, hpost⟩ | ⟨pre, post, heq, hleft, hpost⟩)
      · refine ⟨[], post, heq, fun d hd => hprev d ?_, hpost⟩
        simpa using hd
      · refine ⟨c :: pre, post, by simp [heq], fun d hd => hleft d ?_, hpost⟩
        rw [← getLast?_cons_or pre c prev]
        exact hd
    · rintro ⟨pre, post, heq, hleft, hpost⟩
      cases pre with
      | nil =>
        simp only [List.nil_append] at heq
        left
        refine ⟨post, heq, fun d hd => hleft d ?_, hpost⟩
        simpa using hd
      | cons c' pre' =>
        injection heq with h1 h2
        subst h1
        right
        refine ⟨pre', post, h2, fun d hd => hleft d ?_, hpost⟩
        rw [getLast?_cons_or pre' c prev]
        exact hd

/-- The boolean live-word test agrees with its declarative reading. -/
theorem hasLiveWord_iff (title : String) :
    hasLiveWord title = true ↔ ContainsLiveWord title := by
  rw [hasLiveWord, searchLive_iff, ContainsLiveWord]
  constructor
  · rintro ⟨pre, post, h, hleft, hpost⟩
    exact ⟨pre, post, h, fun c hc => hleft c (by rw [hc]; rfl), hpost⟩
  · rintro ⟨pre, post, h, hleft, hpost⟩
    refine ⟨pre, post, h, fun c hc => hleft c ?_, hpost⟩
    rwa [Option.or_none] at hc

/-- Splitting at the first predicate failure: with an all-true prefix and a
failing pivot, `takeWhile` returns the prefix and `dropWhile` the rest. -/
theorem takeWhile_dropWhile_middle {α : Type} (p : α → Bool) :
    ∀ (l : List α) (x : α) (r : List α), (∀ c ∈ l, p c = true) → p x = false →
      ((l ++ x :: r).takeWhile p = l ∧ (l ++ x :: r).dropWhile p = x :: r) := by
  intro l
  induction l with
  | nil =>
    intro x r _ hx
    simp [List.takeWhile_cons, List.dropWhile_cons, hx]
  | cons a l ih =>
    intro x r hall hx
    have ha : p a = true := hall a (List.mem_cons_self a l)
    have := ih x r (fun c hc => hall c (List.mem_cons_of_mem a hc)) hx
    simp [List.takeWhile_cons, List.dropWhile_cons, ha, this.1, this.2]

/-- The head of `dropWhile` fails the predicate. -/
theorem dropWhile_head_not {α : Type} (p : α → Bool) :
    ∀ (l : List α) (c : α), (l.dropWhile p).head? = some c → p c = false := by
  intro l
  induction l with
  | nil => intro c h; cases h
  | cons a l ih =>
    intro c h
    rw [List.dropWhile_cons] at h
    by_cases ha : p a = true
    · rw [if_pos ha] at h
      exact ih c h
    · rw [if_neg ha] at h
      injection h with h1
      subst h1
      exact Bool.eq_false_iff.mpr ha

/-- List-level form of the integer-or-decimal test, stated on the
`takeWhile`/`dropWhile` decomposition. -/
theorem numericBool_iff (cs : List Char) :
    (decide (cs.takeWhile Char.isDigit ≠ []) &&
      ((cs.dropWhile Char.isDigit).isEmpty ||
        ((cs.dropWhile Char.isDigit).head? == some '.' &&
          decide ((cs.dropWhile Char.isDigit).tail ≠ []) &&
          (cs.dropWhile Char.isDigit).tail.all Char.isDigit))) = true ↔
    NumericShape cs := by
  simp only [Bool.and_eq_true, Bool.or_eq_true, decide_eq_true_eq, beq_iff_eq,
    List.isEmpty_iff, List.all_eq_true]
  rw [NumericShape]
  constructor
  · rintro ⟨hds, hdrop | ⟨⟨hdot, htl⟩, hdig⟩⟩
    · left
      have hcs : cs.takeWhile Char.isDigit = cs := by
        conv_rhs => rw [← List.takeWhile_append_dropWhile Char.isDigit cs]
        rw [hdrop, List.append_nil]
      exact ⟨by rw [← hcs]; exact hds,
        fun c hc => List.mem_takeWhile_imp (by rw [hcs]; exact hc)⟩
    · right
      obtain ⟨c0, tl, hdtl⟩ : ∃ c0 tl, cs.dropWhile Char.isDigit = c0 :: tl := by
        cases h : cs.dropWhile Char.isDigit with
        | nil => rw [h] at hdot; cases hdot
        | cons c0 tl => exact ⟨c0, tl, rfl⟩
      have hc0 : c0 = '.' := by
        rw [hdtl] at hdot
        injection hdot
      subst hc0
      refine ⟨cs.takeWhile Char.isDigit, tl, hds,
        fun c hc => List.mem_takeWhile_imp hc, ?_, ?_, ?_⟩
      · rw [hdtl] at htl
        simpa using htl
      · intro c hc
        rw [hdtl] at hdig
        exact hdig c (by simpa using hc)
      · conv_lhs => rw [← List.takeWhile_append_dropWhile Char.isDigit cs]
        rw [hdtl]
  · rintro (⟨hne, hall⟩ | ⟨ds, tl, hds, hdig, htl, htldig, hcs⟩)
    · have htake : cs.takeWhile Char.isDigit = cs := List.takeWhile_eq_self_iff.mpr hall
      have hdrop : cs.dropWhile Char.isDigit = [] := List.dropWhile_eq_nil_iff.mpr hall
      exact ⟨by rw [htake]; exact hne, Or.inl hdrop⟩
    · have hmid := takeWhile_dropWhile_middle Char.isDigit ds '.' tl hdig (by decide)
      rw [hcs]
      refine ⟨by rw [hmid.1]; exact hds, Or.inr ⟨⟨?_, ?_⟩, ?_⟩⟩
      · rw [hmid.2]
        rfl
      · rw [hmid.2]
        simpa using htl
      · intro c hc
        rw [hmid.2] at hc
        exact htldig c (by simpa using hc)

/-- The boolean integer-or-decimal test agrees with its declarative
reading. -/
theorem isNumericPattern_iff (s : String) :
    isNumericPattern s = true ↔ NumericShape s.toList :=
  numericBool_iff s.toList

/-- Claim C10: an episode whose number is absent or empty is classified live
exactly when its title contains the standalone word `live`, even though the
empty number string also fails the integer-or-decimal pattern. -/
theorem emptyNumber_spec (title : String) :
    (isLiveEpisode none title = true ↔ ContainsLiveWord title) ∧
    (isLiveEpisode (some "") title = true ↔ ContainsLiveWord title) ∧
    isNumericPattern "" = false :=
  ⟨by rw [← hasLiveWord_iff]; simp [isLiveEpisode],
   by rw [← hasLiveWord_iff]; simp [isLiveEpisode],
   by decide⟩

/-- Claim C3 counterexample: the title of the fourth example contains `Live`
as a standalone word, so the classifier returns live, contradicting the
claimed "not live"; moreover an empty number fails the integer-or-decimal
pattern yet does not make the episode live, contradicting the claimed
if-and-only-if. -/
theorem liveClassifier_claim_counterexample :
    isLiveEpisode (some "145") "I\x27ll Always Live Here" = true ∧
    (isLiveEpisode (some "") "Road Trip" = false ∧
      isNumericPattern "" = false ∧ hasLiveWord "Road Trip" = false) := by
  exact ⟨by decide, by decide, by decide, by decide⟩

/-- Claim C3 (amended): the classifier returns live iff the number is
present, nonempty and fails the pure integer-or-decimal pattern, or the
title contains the standalone word `live` (case-insensitive, with word
boundaries).  Examples: number `BO2013.1` is live; number `145` with title
`The Best of CBB` is not; `Live from Austin` is live; and `I'll Always Live
Here` is also live, because `Live` stands alone in it. -/
theorem liveClassifier_amended_spec :
    (∀ (num : Option String) (title : String),
        isLiveEpisode num title = true ↔
          ((∃ s, num = some s ∧ s ≠ "" ∧ ¬ NumericShape s.toList) ∨
            ContainsLiveWord title)) ∧
    isLiveEpisode (some "BO2013.1") "Tour Stop" = true ∧
    isLiveEpisode (some "145") "The Best of CBB" = false ∧
    isLiveEpisode (some "145") "Live from Austin" = true ∧
    isLiveEpisode (some "145") "I\x27ll Always Live Here" = true := by
  refine ⟨?_, by decide, by decide, by decide, by decide⟩
  intro num title
  match num with
  | none =>
    rw [show isLiveEpisode none title = hasLiveWord title from by simp [isLiveEpisode]]
    rw [hasLiveWord_iff]
    simp
  | some s =>
    by_cases hs : s = ""
    · subst hs
      rw [show isLiveEpisode (some "") title = hasLiveWord title from by
        simp [isLiveEpisode]]
      rw [hasLiveWord_iff]
      constructor
      · intro h; exact Or.inr h
      · rintro (⟨s', hss, hne, -⟩ | h)
        · exact absurd (by injection hss with h'; exact h'.symm) hne
        · exact h
    · rw [show isLiveEpisode (some s) title =
          (!isNumericPattern s || hasLiveWord title) from by simp [isLiveEpisode, hs]]
      rw [Bool.or_eq_true, Bool.not_eq_true', hasLiveWord_iff]
      constructor
      · rintro (h | h)
        · exact Or.inl ⟨s, rfl, hs, fun hshape =>
            by rw [(isNumericPattern_iff s).mpr hshape] at h; cases h⟩
        · exact Or.inr h
      · rintro (⟨s', hss, -, hshape⟩ | h)
        · injection hss with h'
          subst h'
          left
          cases hp : isNumericPattern s with
          | false => rfl
          | true => exact absurd ((isNumericPattern_iff s).mp hp) hshape
        · exact Or.inr h

/-- Inserting an element satisfying `p` into a list, when every element the
insertion can skip over fails `p`, prepends it to the filtered list. -/
theorem filter_orderedInsert_pos {α : Type} (r : α → α → Prop) [DecidableRel r] (p : α → Bool)
    (a : α) (l : List α) (hpa : p a = true) (h : ∀ b, ¬ r a b → p b = false) :
    (l.orderedInsert r a).filter p = a :: l.filter p := by
  rw [List.orderedInsert_eq_take_drop, List.filter_append]
  have htake : (l.takeWhile fun b => decide ¬ r a b).filter p = [] := by
    rw [List.filter_eq_nil_iff]
    intro b hb
    have hb' := List.mem_takeWhile_imp hb
    simp only [decide_eq_true_eq] at hb'
    simp [h b hb']
  have hl : l.filter p = (l.dropWhile fun b => decide ¬ r a b).filter p := by
    conv_lhs => rw [← List.takeWhile_append_dropWhile (fun b => decide ¬ r a b) l]
    rw [List.filter_append, htake, List.nil_append]
  rw [htake, List.nil_append, List.filter_cons_of_pos hpa, hl]

/-- Inserting an element failing `p` does not change the filtered list. -/
theorem filter_orderedInsert_neg {α : Type} (r : α → α → Prop) [DecidableRel r] (p : α → Bool)
    (a : α) (l : List α) (hpa : p a = false) :
    (l.orderedInsert r a).filter p = l.filter p := by
  rw [List.orderedInsert_eq_take_drop, List.filter_append,
    List.filter_cons_of_neg (by simp [hpa]), ← List.filter_append,
    List.takeWhile_append_dropWhile]

/-- Stability of insertion sort, seen through filters: when the sort
relation never reorders across the predicate boundary downwards, sorting
does not change the filtered sublist. -/
theorem filter_insertionSort {α : Type} (r : α → α → Prop) [DecidableRel r] (p : α → Bool)
    (h : ∀ a b, p a = true → ¬ r a b → p b = false) :
    ∀ l : List α, (l.insertionSort r).filter p = l.filter p := by
  intro l
  induction l with
  | nil => rfl
  | cons a l ih =>
    rw [List.insertionSort]
    cases hpa : p a with
    | true =>
      rw [filter_orderedInsert_pos r p a _ hpa (fun b => h a b hpa), ih,
        List.filter_cons_of_pos hpa]
    | false =>
      rw [filter_orderedInsert_neg r p a _ hpa, ih, List.filter_cons_of_neg (by simp [hpa])]

/-- The element at position `j` of the normalized corpus is the `j`-th
element of the stable-sorted kept records, enriched with index `j`. -/
theorem normalize_get (pd : String → Option Int) (raws : List RawEpisode) :
    ∀ (j : Nat) (hj : j < (normalizeEpisodes pd raws).length)
      (hj2 : j < ((raws.filterMap (normRecord pd)).insertionSort dateLe).length),
      (normalizeEpisodes pd raws).get ⟨j, hj⟩ =
        enrich j (((raws.filterMap (normRecord pd)).insertionSort dateLe).get ⟨j, hj2⟩) := by
  intro j hj hj2
  rw [List.get_eq_getElem, List.get_eq_getElem]
  simp only [normalizeEpisodes, List.getElem_map, List.getElem_enum]

/-- Claim C1: the Record Normalizer keeps exactly the records whose date
parses (as a permutation of the filter-mapped input), its output is sorted
ascending by date with adjacent indices in order, the assigned `idx` equals
the position, and ties are kept in input order (the per-date sublists of
output and input coincide). -/
theorem normalizer_spec (pd : String → Option Int) (raws : List RawEpisode) :
    (∀ (i : Nat) (h : i + 1 < (normalizeEpisodes pd raws).length),
        ((normalizeEpisodes pd raws).get ⟨i, Nat.lt_of_succ_lt h⟩).date ≤
          ((normalizeEpisodes pd raws).get ⟨i + 1, h⟩).date) ∧
    (∀ (i : Nat) (h : i < (normalizeEpisodes pd raws).length),
        ((normalizeEpisodes pd raws).get ⟨i, h⟩).idx = i) ∧
    ((normalizeEpisodes pd raws).map (fun e => e.toEp0)).Perm
      (raws.filterMap (normRecord pd)) ∧
    (∀ d : Int,
      ((normalizeEpisodes pd raws).map (fun e => e.toEp0)).filter (fun e => e.date == d) =
        (raws.filterMap (normRecord pd)).filter (fun e => e.date == d)) := by
  haveI : IsTotal Ep0 dateLe := ⟨fun a b => Int.le_total a.date b.date⟩
  haveI : IsTrans Ep0 dateLe := ⟨fun a b c h1 h2 => le_trans h1 h2⟩
  have hproj : (normalizeEpisodes pd raws).map (fun e => e.toEp0) =
      (raws.filterMap (normRecord pd)).insertionSort dateLe := by
    rw [normalizeEpisodes, List.map_map]
    have hfun : ((fun e : Episode => e.toEp0) ∘ fun p : Nat × Ep0 => enrich p.1 p.2) =
        Prod.snd := rfl
    rw [hfun, List.enum_map_snd]
  have hsorted : List.Pairwise dateLe
      ((raws.filterMap (normRecord pd)).insertionSort dateLe) :=
    List.sorted_insertionSort dateLe (raws.filterMap (normRecord pd))
  have hlen : (normalizeEpisodes pd raws).length =
      ((raws.filterMap (normRecord pd)).insertionSort dateLe).length := by
    rw [← hproj, List.length_map]
  refine ⟨?_, ?_, ?_, ?_⟩
  · intro i h
    have h1 : i < (normalizeEpisodes pd raws).length := Nat.lt_of_succ_lt h
    have h1s : i < ((raws.filterMap (normRecord pd)).insertionSort dateLe).length :=
      hlen ▸ h1
    have h2s : i + 1 < ((raws.filterMap (normRecord pd)).insertionSort dateLe).length :=
      hlen ▸ h
    rw [normalize_get pd raws i h1 h1s, normalize_get pd raws (i + 1) h h2s]
    exact List.pairwise_iff_get.mp hsorted ⟨i, h1s⟩ ⟨i + 1, h2s⟩ (Nat.lt_succ_self i)
  · intro i h
    rw [normalize_get pd raws i h (hlen ▸ h)]
    rfl
  · rw [hproj]
    exact List.perm_insertionSort dateLe (raws.filterMap (normRecord pd))
  · intro d
    rw [hproj]
    refine filter_insertionSort dateLe (fun e => e.date == d) ?_
      (raws.filterMap (normRecord pd))
    intro a b ha hr
    rw [beq_iff_eq] at ha
    rw [dateLe] at hr
    rw [beq_eq_false_iff_ne]
    omega

/-- Witness for `normalizer_spec` on the sample corpus: the record with the
bad date is dropped, the two date-50 records keep their input order
(C before D), indices are positional, and dates ascend. -/
theorem normalizer_spec_witness :
    ((normalizeEpisodes samplePd sampleRaws).get ⟨0, by decide⟩).date ≤
      ((normalizeEpisodes samplePd sampleRaws).get ⟨1, by decide⟩).date ∧
    ((normalizeEpisodes samplePd sampleRaws).get ⟨1, by decide⟩).idx = 1 ∧
    ((normalizeEpisodes samplePd sampleRaws).map (fun e => e.toEp0)).filter
        (fun e => e.date == 50) =
      (sampleRaws.filterMap (normRecord samplePd)).filter (fun e => e.date == 50) :=
  ⟨(normalizer_spec samplePd sampleRaws).1 0 (by decide),
   (normalizer_spec samplePd sampleRaws).2.1 1 (by decide),
   (normalizer_spec samplePd sampleRaws).2.2.2 50⟩

/-- Appending a strictly larger index preserves the entity-record shape:
same head, new last element, still strictly ascending, bounded by `n`. -/
theorem episodes_push_facts (l : List Nat) (f n : Nat)
    (hh : l.head? = some f) (hp : List.Pairwise (· < ·) l)
    (hb : ∀ j ∈ l, j < n) :
    (l ++ [n]).head? = some f ∧ (l ++ [n]).getLast? = some n ∧
    List.Pairwise (· < ·) (l ++ [n]) ∧ ∀ j ∈ l ++ [n], j ≤ n := by
  refine ⟨?_, List.getLast?_concat l, ?_, ?_⟩
  · rw [List.head?_append, hh]
    rfl
  · rw [List.pairwise_append]
    exact ⟨hp, List.pairwise_singleton _ n,
      fun a ha b hb' => by rw [List.mem_singleton.mp hb']; exact hb a ha⟩
  · intro j hj
    rcases List.mem_append.mp hj with hj1 | hj2
    · exact Nat.le_of_lt (hb j hj1)
    · rw [List.mem_singleton.mp hj2]

/-- One `guestStep` preserves the mid-episode invariant, consuming the
processed name from the pending list. -/
theorem guestStep_mid (n : Nat) (gs : List String) (g : String) (hg : g ∉ gs)
    (m : List (String × EntityRec)) (h : ∀ p ∈ m, MidRec n (g :: gs) p) :
    ∀ p ∈ guestStep n m g, MidRec n gs p := by
  intro p hp
  simp only [guestStep, emapUpdate, List.mem_map] at hp
  obtain ⟨q, hqM, hpq⟩ := hp
  by_cases hfind : (emapFind m g).isSome = true
  · rw [if_pos hfind] at hqM
    cases hbeq : (q.1 == g) with
    | false =>
      rw [hbeq] at hpq
      simp only [Bool.false_eq_true, if_false] at hpq
      subst hpq
      obtain ⟨h1, h2, h3, h4, h5⟩ := h q hqM
      exact ⟨h1, h2, h3, h4, fun hmem => h5 (List.mem_cons_of_mem g hmem)⟩
    | true =>
      rw [hbeq] at hpq
      simp only [if_true] at hpq
      subst hpq
      obtain ⟨h1, h2, h3, h4, h5⟩ := h q hqM
      have hqg : q.1 = g := beq_iff_eq.mp hbeq
      have hlt : ∀ j ∈ q.2.episodes, j < n := h5 (by rw [hqg]; exact List.mem_cons_self g gs)
      obtain ⟨f1, f2, f3, f4⟩ := episodes_push_facts q.2.episodes q.2.firstIdx n h1 h3 hlt
      exact ⟨f1, f2, f3, f4, fun hmem => absurd (hqg ▸ hmem) hg⟩
  · rw [if_neg hfind] at hqM
    rcases List.mem_append.mp hqM with hq1 | hq2
    · cases hbeq : (q.1 == g) with
      | false =>
        rw [hbeq] at hpq
        simp only [Bool.false_eq_true, if_false] at hpq
        subst hpq
        obtain ⟨h1, h2, h3, h4, h5⟩ := h q hq1
        exact ⟨h1, h2, h3, h4, fun hmem => h5 (List.mem_cons_of_mem g hmem)⟩
      | true =>
        rw [hbeq] at hpq
        simp only [if_true] at hpq
        subst hpq
        obtain ⟨h1, h2, h3, h4, h5⟩ := h q hq1
        have hqg : q.1 = g := beq_iff_eq.mp hbeq
        have hlt : ∀ j ∈ q.2.episodes, j < n := h5 (by rw [hqg]; exact List.mem_cons_self g gs)
        obtain ⟨f1, f2, f3, f4⟩ := episodes_push_facts q.2.episodes q.2.firstIdx n h1 h3 hlt
        exact ⟨f1, f2, f3, f4, fun hmem => absurd (hqg ▸ hmem) hg⟩
    · have hq : q = (g, { name := g, episodes := [], firstIdx := n, lastIdx := n }) :=
        List.mem_singleton.mp hq2
      subst hq
      simp only [beq_self_eq_true, if_true] at hpq
      subst hpq
      refine ⟨rfl, rfl, List.pairwise_singleton _ n, ?_, fun hmem => absurd hmem hg⟩
      intro j hj
      rw [List.mem_singleton.mp hj]

/-- Folding `guestStep` over the distinct guest names of one episode turns
the mid-episode invariant into its fully-processed form. -/
theorem foldl_guestStep_mid (n : Nat) :
    ∀ (gs : List String) (m : List (String × EntityRec)),
      gs.Nodup → (∀ p ∈ m, MidRec n gs p) →
      ∀ p ∈ gs.foldl (guestStep n) m, MidRec n [] p := by
  intro gs
  induction gs with
  | nil => intro m _ h p hp; exact h p hp
  | cons g gs ih =>
    intro m hnd h p hp
    rw [List.foldl_cons] at hp
    have hnd' := List.nodup_cons.mp hnd
    exact ih (guestStep n m g) hnd'.2 (guestStep_mid n gs g hnd'.1 m h) p hp

/-- A fully processed record is good with the bound advanced to `n`. -/
theorem midRec_toGood (n : Nat) (p : String × EntityRec) (h : MidRec n [] p) :
    GoodRec (n + 1) p :=
  ⟨h.1, h.2.1, h.2.2.1, fun j hj => Nat.lt_succ_of_le (h.2.2.2.1 j hj)⟩

/-- A good record satisfies the mid-episode invariant for any pending
list. -/
theorem goodRec_toMid (n : Nat) (gs : List String) (p : String × EntityRec)
    (h : GoodRec n p) : MidRec n gs p :=
  ⟨h.1, h.2.1, h.2.2.1, fun j hj => Nat.le_of_lt (h.2.2.2 j hj),
   fun _ j hj => h.2.2.2 j hj⟩

/-- The guest-map construction preserves goodness of every record. -/
theorem buildGuestMapAux_good :
    ∀ (eps : List Episode) (n : Nat) (m : List (String × EntityRec)),
      (∀ ep ∈ eps, ep.guests.Nodup) → (∀ p ∈ m, GoodRec n p) →
      ∀ p ∈ buildGuestMapAux n eps m, GoodRec (n + eps.length) p := by
  intro eps
  induction eps with
  | nil =>
    intro n m _ h p hp
    simpa using h p hp
  | cons ep rest ih =>
    intro n m hnd h p hp
    rw [buildGuestMapAux] at hp
    have h1 : ∀ q ∈ ep.guests.foldl (guestStep n) m, GoodRec (n + 1) q := fun q hq =>
      midRec_toGood n q (foldl_guestStep_mid n ep.guests m
        (hnd ep (List.mem_cons_self ep rest))
        (fun q' hq' => goodRec_toMid n ep.guests q' (h q' hq')) q hq)
    have h2 := ih (n + 1) _ (fun e he => hnd e (List.mem_cons_of_mem ep he)) h1 p hp
    have heq : n + 1 + rest.length = n + (ep :: rest).length := by
      simp only [List.length_cons]
      omega
    rwa [heq] at h2

/-- The last element of a strictly ascending list is its maximum. -/
theorem getLast_is_max :
    ∀ (l : List Nat) (m : Nat), l.getLast? = some m → List.Pairwise (· < ·) l →
      m ∈ l ∧ ∀ j ∈ l, j ≤ m := by
  intro l
  induction l with
  | nil => intro m h; cases h
  | cons a t ih =>
    intro m hl hp
    cases t with
    | nil =>
      simp only [List.getLast?_singleton, Option.some_inj] at hl
      subst hl
      exact ⟨List.mem_singleton_self a, fun j hj => by rw [List.mem_singleton.mp hj]⟩
    | cons b t2 =>
      rw [List.getLast?_cons_cons] at hl
      obtain ⟨hmm, hub⟩ := ih m hl (List.pairwise_cons.mp hp).2
      refine ⟨List.mem_cons_of_mem a hmm, ?_⟩
      intro j hj
      rcases List.mem_cons.mp hj with rfl | hj2
      · exact Nat.le_of_lt ((List.pairwise_cons.mp hp).1 m hmm)
      · exact hub j hj2

/-- The head of a strictly ascending list is its minimum. -/
theorem head_is_min (l : List Nat) (f : Nat) (hh : l.head? = some f)
    (hp : List.Pairwise (· < ·) l) : f ∈ l ∧ ∀ j ∈ l, f ≤ j := by
  cases l with
  | nil => cases hh
  | cons a t =>
    simp only [List.head?_cons, Option.some_inj] at hh
    subst hh
    refine ⟨List.mem_cons_self a t, ?_⟩
    intro j hj
    rcases List.mem_cons.mp hj with rfl | hj2
    · exact Nat.le_refl j
    · exact Nat.le_of_lt ((List.pairwise_cons.mp hp).1 j hj2)

/-- One `charStep` preserves the mid-episode invariant of the entity part of
character records; the `guests` set update does not affect it. -/
theorem charStep_mid (epG : List String) (n : Nat) (gs : List String) (c : String)
    (hg : c ∉ gs) (m : List (String × CharRec)) (h : ∀ p ∈ m, MidRecC n (c :: gs) p) :
    ∀ p ∈ charStep epG n m c, MidRecC n gs p := by
  intro p hp
  simp only [charStep, emapUpdate, List.mem_map] at hp
  obtain ⟨q, hqM, hpq⟩ := hp
  by_cases hfind : (emapFind m c).isSome = true
  · rw [if_pos hfind] at hqM
    cases hbeq : (q.1 == c) with
    | false =>
      rw [hbeq] at hpq
      simp only [Bool.false_eq_true, if_false] at hpq
      subst hpq
      obtain ⟨h1, h2, h3, h4, h5⟩ := h q hqM
      exact ⟨h1, h2, h3, h4, fun hmem => h5 (List.mem_cons_of_mem c hmem)⟩
    | true =>
      rw [hbeq] at hpq
      simp only [if_true] at hpq
      subst hpq
      obtain ⟨h1, h2, h3, h4, h5⟩ := h q hqM
      have hqc : q.1 = c := beq_iff_eq.mp hbeq
      have hlt : ∀ j ∈ q.2.episodes, j < n := h5 (by rw [hqc]; exact List.mem_cons_self c gs)
      obtain ⟨f1, f2, f3, f4⟩ :=
        episodes_push_facts q.2.episodes q.2.firstIdx n h1 h3 hlt
      exact ⟨f1, f2, f3, f4, fun hmem => absurd (hqc ▸ hmem) hg⟩
  · rw [if_neg hfind] at hqM
    rcases List.mem_append.mp hqM with hq1 | hq2
    · cases hbeq : (q.1 == c) with
      | false =>
        rw [hbeq] at hpq
        simp only [Bool.false_eq_true, if_false] at hpq
        subst hpq
        obtain ⟨h1, h2, h3, h4, h5⟩ := h q hq1
        exact ⟨h1, h2, h3, h4, fun hmem => h5 (List.mem_cons_of_mem c hmem)⟩
      | true =>
        rw [hbeq] at hpq
        simp only [if_true] at hpq
        subst hpq
        obtain ⟨h1, h2, h3, h4, h5⟩ := h q hq1
        have hqc : q.1 = c := beq_iff_eq.mp hbeq
        have hlt : ∀ j ∈ q.2.episodes, j < n := h5 (by rw [hqc]; exact List.mem_cons_self c gs)
        obtain ⟨f1, f2, f3, f4⟩ :=
          episodes_push_facts q.2.episodes q.2.firstIdx n h1 h3 hlt
        exact ⟨f1, f2, f3, f4, fun hmem => absurd (hqc ▸ hmem) hg⟩
    · have hq : q = (c, { name := c, episodes := [], firstIdx := n, lastIdx := n, guests := [] }) :=
        List.mem_singleton.mp hq2
      subst hq
      simp only [beq_self_eq_true, if_true] at hpq
      subst hpq
      refine ⟨rfl, rfl, List.pairwise_singleton _ n, ?_, fun hmem => absurd hmem hg⟩
      intro j hj
      rw [List.mem_singleton.mp hj]

/-- Folding `charStep` over the distinct character names of one episode. -/
theorem foldl_charStep_mid (epG : List String) (n : Nat) :
    ∀ (cs : List String) (m : List (String × CharRec)),
      cs.Nodup → (∀ p ∈ m, MidRecC n cs p) →
      ∀ p ∈ cs.foldl (charStep epG n) m, MidRecC n [] p := by
  intro cs
  induction cs with
  | nil => intro m _ h p hp; exact h p hp
  | cons c cs ih =>
    intro m hnd h p hp
    rw [List.foldl_cons] at hp
    have hnd' := List.nodup_cons.mp hnd
    exact ih (charStep epG n m c) hnd'.2 (charStep_mid epG n cs c hnd'.1 m h) p hp

/-- The character-map construction preserves goodness of every record. -/
theorem buildCharacterMapAux_good :
    ∀ (eps : List Episode) (n : Nat) (m : List (String × CharRec)),
      (∀ ep ∈ eps, ep.characters.Nodup) → (∀ p ∈ m, GoodRecC n p) →
      ∀ p ∈ buildCharacterMapAux n eps m, GoodRecC (n + eps.length) p := by
  intro eps
  induction eps with
  | nil =>
    intro n m _ h p hp
    simpa using h p hp
  | cons ep rest ih =>
    intro n m hnd h p hp
    rw [buildCharacterMapAux] at hp
    have h1 : ∀ q ∈ ep.characters.foldl (charStep ep.guests n) m, GoodRecC (n + 1) q :=
      fun q hq =>
        midRec_toGood n (q.1, q.2.toEntityRec) (foldl_charStep_mid ep.guests n ep.characters m
          (hnd ep (List.mem_cons_self ep rest))
          (fun q' hq' => goodRec_toMid n ep.characters (q'.1, q'.2.toEntityRec) (h q' hq'))
          q hq)
    have h2 := ih (n + 1) _ (fun e he => hnd e (List.mem_cons_of_mem ep he)) h1 p hp
    have heq : n + 1 + rest.length = n + (ep :: rest).length := by
      simp only [List.length_cons]
      omega
    rwa [heq] at h2

/-- Claim C2: for every record of either index built from a corpus where no
entity name repeats within one episode's list, `episodeIndices` is strictly
ascending with no duplicates, `firstIdx` is its minimum and `lastIdx` its
maximum. -/
theorem indexer_ordering_spec (eps : List Episode)
    (hg : ∀ ep ∈ eps, ep.guests.Nodup) (hc : ∀ ep ∈ eps, ep.characters.Nodup) :
    (∀ p ∈ buildGuestMap eps,
      List.Pairwise (· < ·) p.2.episodes ∧ p.2.episodes.Nodup ∧
      (p.2.firstIdx ∈ p.2.episodes ∧ ∀ j ∈ p.2.episodes, p.2.firstIdx ≤ j) ∧
      (p.2.lastIdx ∈ p.2.episodes ∧ ∀ j ∈ p.2.episodes, j ≤ p.2.lastIdx)) ∧
    (∀ p ∈ buildCharacterMap eps,
      List.Pairwise (· < ·) p.2.episodes ∧ p.2.episodes.Nodup ∧
      (p.2.firstIdx ∈ p.2.episodes ∧ ∀ j ∈ p.2.episodes, p.2.firstIdx ≤ j) ∧
      (p.2.lastIdx ∈ p.2.episodes ∧ ∀ j ∈ p.2.episodes, j ≤ p.2.lastIdx)) := by
  constructor
  · intro p hp
    have hgood : GoodRec (0 + eps.length) p :=
      buildGuestMapAux_good eps 0 [] hg (fun q hq => absurd hq (List.not_mem_nil q)) p hp
    obtain ⟨h1, h2, h3, _⟩ := hgood
    exact ⟨h3, h3.imp (fun hlt => Nat.ne_of_lt hlt),
      head_is_min p.2.episodes p.2.firstIdx h1 h3,
      getLast_is_max p.2.episodes p.2.lastIdx h2 h3⟩
  · intro p hp
    have hgood : GoodRecC (0 + eps.length) p :=
      buildCharacterMapAux_good eps 0 [] hc (fun q hq => absurd hq (List.not_mem_nil q)) p hp
    obtain ⟨h1, h2, h3, _⟩ := hgood
    exact ⟨h3, h3.imp (fun hlt => Nat.ne_of_lt hlt),
      head_is_min p.2.episodes p.2.firstIdx h1 h3,
      getLast_is_max p.2.episodes p.2.lastIdx h2 h3⟩

/-- Witness for `indexer_ordering_spec`: guest `A` of the sample corpus has
episodes `[0, 2]`, strictly ascending, with `firstIdx = 0` the minimum and
`lastIdx = 2` the maximum. -/
theorem indexer_ordering_spec_witness :
    List.Pairwise (· < ·) ([0, 2] : List Nat) ∧ ([0, 2] : List Nat).Nodup ∧
    ((0 : Nat) ∈ ([0, 2] : List Nat) ∧ ∀ j ∈ ([0, 2] : List Nat), 0 ≤ j) ∧
    ((2 : Nat) ∈ ([0, 2] : List Nat) ∧ ∀ j ∈ ([0, 2] : List Nat), j ≤ 2) :=
  (indexer_ordering_spec sampleEps (by decide) (by decide)).1
    ("A", { name := "A", episodes := [0, 2], firstIdx := 0, lastIdx := 2 }) (by decide)

/-- Membership in an iterated `Set.add`: the union of the base set and the
added list. -/
theorem mem_foldl_setAdd :
    ∀ (gs s : List String) (g : String), g ∈ gs.foldl setAdd s ↔ g ∈ s ∨ g ∈ gs := by
  intro gs
  induction gs with
  | nil => intro s g; simp
  | cons a gs ih =>
    intro s g
    rw [List.foldl_cons, ih]
    by_cases ha : a ∈ s
    · simp only [setAdd, if_pos ha, List.mem_cons]
      constructor
      · rintro (h1 | h2)
        · exact Or.inl h1
        · exact Or.inr (Or.inr h2)
      · rintro (h1 | rfl | h2)
        · exact Or.inl h1
        · exact Or.inl ha
        · exact Or.inr h2
    · simp only [setAdd, if_neg ha, List.mem_append, List.mem_singleton, List.mem_cons]
      tauto

/-- An association-list lookup misses exactly when no entry has the key. -/
theorem emapFind_none_iff {A : Type} (M : List (String × A)) (k : String) :
    emapFind M k = none ↔ ∀ q ∈ M, (q.1 == k) = false := by
  rw [emapFind, Option.map_eq_none', List.find?_eq_none]
  constructor
  · intro h q hq
    have := h q hq
    simpa using this
  · intro h q hq
    simp [h q hq]

/-- In-place updates do not change which keys an association list misses. -/
theorem emapFind_emapUpdate_none {A : Type} (M : List (String × A)) (kk k : String)
    (f : A → A) : emapFind (emapUpdate M kk f) k = none ↔ emapFind M k = none := by
  rw [emapFind_none_iff, emapFind_none_iff]
  constructor
  · intro h q hq
    have := h (if q.1 == kk then (q.1, f q.2) else q)
      (by rw [emapUpdate]; exact List.mem_map_of_mem _ hq)
    cases hbeq : (q.1 == kk) with
    | true => simp [hbeq] at this; simpa using this
    | false => simp [hbeq] at this; simpa using this
  · intro h q hq
    rw [emapUpdate, List.mem_map] at hq
    obtain ⟨o, ho, rfl⟩ := hq
    cases hbeq : (o.1 == kk) with
    | true => simp [hbeq]; simpa using h o ho
    | false => simp [hbeq]; simpa using h o ho

/-- Appending one entry: the lookup misses iff it missed before and the new
key differs. -/
theorem emapFind_append_none {A : Type} (M : List (String × A)) (k c : String) (v : A) :
    emapFind (M ++ [(c, v)]) k = none ↔ emapFind M k = none ∧ (c == k) = false := by
  rw [emapFind_none_iff, emapFind_none_iff]
  constructor
  · intro h
    exact ⟨fun q hq => h q (List.mem_append.mpr (Or.inl hq)),
      by simpa using h (c, v) (List.mem_append.mpr (Or.inr (List.mem_singleton_self _)))⟩
  · rintro ⟨h1, h2⟩ q hq
    rcases List.mem_append.mp hq with hq1 | hq2
    · exact h1 q hq1
    · rw [List.mem_singleton.mp hq2]
      simpa using h2

/-- A key missed after a `charStep` was missed before and is not the
processed character. -/
theorem charStep_find_none (epG : List String) (n : Nat) (m : List (String × CharRec))
    (c k : String) (h : emapFind (charStep epG n m c) k = none) :
    emapFind m k = none ∧ k ≠ c := by
  simp only [charStep] at h
  rw [emapFind_emapUpdate_none] at h
  by_cases hfind : (emapFind m c).isSome = true
  · rw [if_pos hfind] at h
    refine ⟨h, fun hkc => ?_⟩
    subst hkc
    rw [h] at hfind
    simp at hfind
  · rw [if_neg hfind] at h
    rw [emapFind_append_none] at h
    refine ⟨h.1, fun hkc => ?_⟩
    have := h.2
    rw [hkc] at this
    simp at this

/-- One `charStep` extends the membership invariant by the processed
character name. -/
theorem charStep_memInv (epG : List String) (n : Nat) (A : String → Nat → Prop)
    (B : String → String → Prop) (done : List String) (c : String)
    (hAn : ∀ k, ¬ A k n)
    (m : List (String × CharRec)) (h : CharMemInv epG n A B done m) :
    CharMemInv epG n A B (done ++ [c]) (charStep epG n m c) := by
  obtain ⟨hent, hcomp⟩ := h
  constructor
  · intro p hp
    simp only [charStep, emapUpdate, List.mem_map] at hp
    obtain ⟨q, hqM, hpq⟩ := hp
    have hqm_or : q ∈ m ∨ ((emapFind m c).isSome = false ∧
        q = (c, { name := c, episodes := [], firstIdx := n, lastIdx := n, guests := [] })) := by
      by_cases hfind : (emapFind m c).isSome = true
      · rw [if_pos hfind] at hqM
        exact Or.inl hqM
      · rw [if_neg hfind] at hqM
        rcases List.mem_append.mp hqM with h1 | h2
        · exact Or.inl h1
        · exact Or.inr ⟨by simpa using hfind, List.mem_singleton.mp h2⟩
    rcases hqm_or with hq | ⟨hnone, hq⟩
    · obtain ⟨he, hg⟩ := hent q hq
      cases hbeq : (q.1 == c) with
      | false =>
        rw [hbeq] at hpq
        simp only [Bool.false_eq_true, if_false] at hpq
        subst hpq
        have hne : q.1 ≠ c := fun hh => by rw [hh] at hbeq; simp at hbeq
        constructor
        · intro i
          rw [he i]
          constructor
          · rintro (hA | ⟨rfl, hd⟩)
            · exact Or.inl hA
            · exact Or.inr ⟨rfl, List.mem_append.mpr (Or.inl hd)⟩
          · rintro (hA | ⟨rfl, hd⟩)
            · exact Or.inl hA
            · rcases List.mem_append.mp hd with h1 | h2
              · exact Or.inr ⟨rfl, h1⟩
              · exact absurd (List.mem_singleton.mp h2) hne
        · intro g
          rw [hg g]
          constructor
          · rintro (hB | ⟨hd, hgE⟩)
            · exact Or.inl hB
            · exact Or.inr ⟨List.mem_append.mpr (Or.inl hd), hgE⟩
          · rintro (hB | ⟨hd, hgE⟩)
            · exact Or.inl hB
            · rcases List.mem_append.mp hd with h1 | h2
              · exact Or.inr ⟨h1, hgE⟩
              · exact absurd (List.mem_singleton.mp h2) hne
      | true =>
        rw [hbeq] at hpq
        simp only [if_true] at hpq
        subst hpq
        have hqc : q.1 = c := beq_iff_eq.mp hbeq
        have hcdone : q.1 ∈ done ++ [c] :=
          List.mem_append.mpr (Or.inr (by rw [hqc]; exact List.mem_singleton_self c))
        constructor
        · intro i
          simp only [List.mem_append, List.mem_singleton]
          rw [he i]
          constructor
          · rintro ((hA | ⟨rfl, hd⟩) | rfl)
            · exact Or.inl hA
            · exact Or.inr ⟨rfl, Or.inl hd⟩
            · exact Or.inr ⟨rfl, Or.inr hqc⟩
          · rintro (hA | ⟨rfl, _⟩)
            · exact Or.inl (Or.inl hA)
            · exact Or.inr rfl
        · intro g
          rw [mem_foldl_setAdd epG q.2.guests g, hg g]
          constructor
          · rintro ((hB | ⟨hd, hgE⟩) | hgE)
            · exact Or.inl hB
            · exact Or.inr ⟨List.mem_append.mpr (Or.inl hd), hgE⟩
            · exact Or.inr ⟨hcdone, hgE⟩
          · rintro (hB | ⟨_, hgE⟩)
            · exact Or.inl (Or.inl hB)
            · exact Or.inr hgE
    · subst hq
      simp only [beq_self_eq_true, if_true] at hpq
      subst hpq
      have hcnone : emapFind m c = none := by
        cases hcn : emapFind m c with
        | none => rfl
        | some v => rw [hcn] at hnone; simp at hnone
      obtain ⟨cA, cB, cD⟩ := hcomp c hcnone
      have hcdone : c ∈ done ++ [c] :=
        List.mem_append.mpr (Or.inr (List.mem_singleton_self c))
      constructor
      · intro i
        simp only [List.nil_append, List.mem_singleton]
        constructor
        · rintro rfl
          exact Or.inr ⟨rfl, hcdone⟩
        · rintro (hA | ⟨rfl, _⟩)
          · exact absurd hA (cA i)
          · rfl
      · intro g
        rw [mem_foldl_setAdd]
        constructor
        · rintro (hgnil | hgE)
          · cases hgnil
          · exact Or.inr ⟨hcdone, hgE⟩
        · rintro (hB | ⟨_, hgE⟩)
          · exact absurd hB (cB g)
          · exact Or.inr hgE
  · intro k hk
    obtain ⟨h1, h2⟩ := charStep_find_none epG n m c k hk
    obtain ⟨c1, c2, c3⟩ := hcomp k h1
    refine ⟨c1, c2, ?_⟩
    intro hmem
    rcases List.mem_append.mp hmem with hd | hc
    · exact c3 hd
    · exact h2 (List.mem_singleton.mp hc)

/-- Folding `charStep` over the character list accumulates its names into
the invariant. -/
theorem foldl_charStep_memInv (epG : List String) (n : Nat) (A : String → Nat → Prop)
    (B : String → String → Prop) (hAn : ∀ k, ¬ A k n) :
    ∀ (cs done : List String) (m : List (String × CharRec)),
      CharMemInv epG n A B done m →
      CharMemInv epG n A B (done ++ cs) (cs.foldl (charStep epG n) m) := by
  intro cs
  induction cs with
  | nil =>
    intro done m h
    simpa using h
  | cons c cs ih =>
    intro done m h
    rw [List.foldl_cons]
    have h2 := ih (done ++ [c]) _ (charStep_memInv epG n A B done c hAn m h)
    rwa [List.append_assoc, List.singleton_append] at h2

/-- Nothing occurred before episode 0. -/
theorem histEp_zero (eps : List Episode) (k : String) (i : Nat) : ¬ histEp eps 0 k i :=
  fun h => Nat.not_lt_zero i h.2.1

/-- No guest was recorded before episode 0. -/
theorem histGuest_zero (eps : List Episode) (k : String) (g : String) :
    ¬ histGuest eps 0 k g :=
  fun ⟨i, h⟩ => Nat.not_lt_zero i h.2.1

/-- The history over the first `n` episodes never mentions index `n`. -/
theorem histEp_self (eps : List Episode) (n : Nat) (k : String) : ¬ histEp eps n k n :=
  fun h => Nat.lt_irrefl n h.2.1

/-- Unfolding one episode of history. -/
theorem histEp_succ (eps : List Episode) (n : Nat) (k : String) (i : Nat)
    (hn : n < eps.length) :
    histEp eps (n + 1) k i ↔
      histEp eps n k i ∨ (i = n ∧ k ∈ (eps.get ⟨n, hn⟩).characters) := by
  constructor
  · rintro ⟨h, hlt, hc⟩
    rcases Nat.lt_succ_iff_lt_or_eq.mp hlt with h1 | rfl
    · exact Or.inl ⟨h, h1, hc⟩
    · exact Or.inr ⟨rfl, hc⟩
  · rintro (⟨h, hlt, hc⟩ | ⟨rfl, hc⟩)
    · exact ⟨h, Nat.lt_succ_of_lt hlt, hc⟩
    · exact ⟨hn, Nat.lt_succ_self i, hc⟩

/-- Unfolding one episode of guest history. -/
theorem histGuest_succ (eps : List Episode) (n : Nat) (k g : String)
    (hn : n < eps.length) :
    histGuest eps (n + 1) k g ↔
      histGuest eps n k g ∨
        (k ∈ (eps.get ⟨n, hn⟩).characters ∧ g ∈ (eps.get ⟨n, hn⟩).guests) := by
  constructor
  · rintro ⟨i, h, hlt, hc, hgu⟩
    rcases Nat.lt_succ_iff_lt_or_eq.mp hlt with h1 | rfl
    · exact Or.inl ⟨i, h, h1, hc, hgu⟩
    · exact Or.inr ⟨hc, hgu⟩
  · rintro (⟨i, h, hlt, hc, hgu⟩ | ⟨hc, hgu⟩)
    · exact ⟨i, h, Nat.lt_succ_of_lt hlt, hc, hgu⟩
    · exact ⟨n, hn, Nat.lt_succ_self n, hc, hgu⟩

/-- History is insensitive to bounds at or beyond the corpus length. -/
theorem histEp_clamp (eps : List Episode) (n : Nat) (k : String) (i : Nat)
    (h : eps.length ≤ n) : histEp eps n k i ↔ histEp eps eps.length k i := by
  constructor <;> rintro ⟨hh, hlt, hc⟩ <;> exact ⟨hh, by omega, hc⟩

/-- Guest history is insensitive to bounds at or beyond the corpus length. -/
theorem histGuest_clamp (eps : List Episode) (n : Nat) (k g : String)
    (h : eps.length ≤ n) : histGuest eps n k g ↔ histGuest eps eps.length k g := by
  constructor <;> rintro ⟨i, hh, hlt, hc, hgu⟩ <;> exact ⟨i, hh, by omega, hc, hgu⟩

/-- The empty map satisfies the between-episodes invariant at position 0. -/
theorem between_start (eps : List Episode) : CharMemBetween eps 0 [] :=
  ⟨fun p hp => absurd hp (List.not_mem_nil p),
   fun k _ => ⟨fun i => histEp_zero eps k i, fun g => histGuest_zero eps k g⟩⟩

/-- Entering episode `n`: the between-episodes invariant is the mid-episode
invariant with nothing processed yet. -/
theorem between_to_inv (eps : List Episode) (n : Nat) (m : List (String × CharRec))
    (hn : n < eps.length) (h : CharMemBetween eps n m) :
    CharMemInv (eps.get ⟨n, hn⟩).guests n (histEp eps n) (histGuest eps n) [] m := by
  obtain ⟨hent, hcomp⟩ := h
  refine ⟨fun p hp => ?_, fun k hk => ?_⟩
  · obtain ⟨he, hg⟩ := hent p hp
    constructor
    · intro i
      rw [he i]
      simp
    · intro g
      rw [hg g]
      simp
  · obtain ⟨c1, c2⟩ := hcomp k hk
    exact ⟨c1, c2, List.not_mem_nil k⟩

/-- Leaving episode `n`: the fully processed mid-episode invariant is the
between-episodes invariant at `n + 1`. -/
theorem inv_to_between (eps : List Episode) (n : Nat) (m : List (String × CharRec))
    (hn : n < eps.length)
    (h : CharMemInv (eps.get ⟨n, hn⟩).guests n (histEp eps n) (histGuest eps n)
      ((eps.get ⟨n, hn⟩).characters) m) :
    CharMemBetween eps (n + 1) m := by
  obtain ⟨hent, hcomp⟩ := h
  refine ⟨fun p hp => ?_, fun k hk => ?_⟩
  · obtain ⟨he, hg⟩ := hent p hp
    constructor
    · intro i
      rw [histEp_succ eps n p.1 i hn]
      exact he i
    · intro g
      rw [histGuest_succ eps n p.1 g hn]
      exact hg g
  · obtain ⟨c1, c2, c3⟩ := hcomp k hk
    constructor
    · intro i hi
      rw [histEp_succ eps n k i hn] at hi
      rcases hi with h1 | ⟨_, h2⟩
      · exact c1 i h1
      · exact c3 h2
    · intro g hg2
      rw [histGuest_succ eps n k g hn] at hg2
      rcases hg2 with h1 | ⟨h2, _⟩
      · exact c2 g h1
      · exact c3 h2

/-- Past the end of the corpus, clamp the invariant bound to the length. -/
theorem between_clamp (eps : List Episode) (n : Nat) (m : List (String × CharRec))
    (h : eps.length ≤ n) (hb : CharMemBetween eps n m) :
    CharMemBetween eps eps.length m := by
  obtain ⟨hent, hcomp⟩ := hb
  refine ⟨fun p hp => ?_, fun k hk => ?_⟩
  · obtain ⟨he, hg⟩ := hent p hp
    exact ⟨fun i => by rw [← histEp_clamp eps n p.1 i h]; exact he i,
           fun g => by rw [← histGuest_clamp eps n p.1 g h]; exact hg g⟩
  · obtain ⟨c1, c2⟩ := hcomp k hk
    exact ⟨fun i hi => c1 i ((histEp_clamp eps n k i h).mpr hi),
           fun g hg2 => c2 g ((histGuest_clamp eps n k g h).mpr hg2)⟩

/-- Running the character-map loop from any position preserves the
between-episodes invariant through to the end of the corpus. -/
theorem charMapAux_between (eps : List Episode) :
    ∀ (rest : List Episode) (n : Nat) (m : List (String × CharRec)),
      eps.drop n = rest → CharMemBetween eps n m →
      CharMemBetween eps eps.length (buildCharacterMapAux n rest m) := by
  intro rest
  induction rest with
  | nil =>
    intro n m hdrop hb
    rw [buildCharacterMapAux]
    exact between_clamp eps n m (List.drop_eq_nil_iff.mp hdrop) hb
  | cons ep rest ih =>
    intro n m hdrop hb
    rw [buildCharacterMapAux]
    have hn : n < eps.length := by
      by_contra hge
      have hnil : eps.drop n = [] := List.drop_eq_nil_iff.mpr (Nat.le_of_not_lt hge)
      rw [hnil] at hdrop
      cases hdrop
    have hsplit : eps.drop n = eps.get ⟨n, hn⟩ :: eps.drop (n + 1) := by
      rw [List.drop_eq_getElem_cons hn, List.get_eq_getElem]
    rw [hdrop] at hsplit
    injection hsplit with hep hrest
    subst hep
    have hinv := between_to_inv eps n m hn hb
    have hfold := foldl_charStep_memInv (eps.get ⟨n, hn⟩).guests n (histEp eps n)
      (histGuest eps n) (fun k => histEp_self eps n k)
      ((eps.get ⟨n, hn⟩).characters) [] m hinv
    rw [List.nil_append] at hfold
    exact ih (n + 1) _ hrest.symm (inv_to_between eps n _ hn hfold)

/-- Claim C8: for every character record, `playedBy` (the `guests` set)
equals the union, over all episodes whose index is in the record's episode
list, of the guest names of that episode. -/
theorem playedBy_spec (eps : List Episode) :
    ∀ p ∈ buildCharacterMap eps, ∀ g : String,
      g ∈ p.2.guests ↔
        ∃ i ∈ p.2.episodes, ∃ h : i < eps.length, g ∈ (eps.get ⟨i, h⟩).guests := by
  intro p hp g
  have hB := charMapAux_between eps eps 0 [] (List.drop_zero eps) (between_start eps)
  obtain ⟨hent, _⟩ := hB
  obtain ⟨hi, hg⟩ := hent p hp
  rw [hg g]
  constructor
  · rintro ⟨i, h, hlt, hchar, hguest⟩
    exact ⟨i, (hi i).mpr ⟨h, hlt, hchar⟩, h, hguest⟩
  · rintro ⟨i, hiep, h, hguest⟩
    obtain ⟨h2, hlt, hchar⟩ := (hi i).mp hiep
    exact ⟨i, h2, hlt, hchar, hguest⟩

/-- Witness for `playedBy_spec`: character `X` of the sample corpus is
played by `B`, who guested in episode 1 where `X` appears. -/
theorem playedBy_spec_witness :
    "B" ∈ (["A", "B"] : List String) ↔
      ∃ i ∈ ([0, 1] : List Nat), ∃ h : i < sampleEps.length,
        "B" ∈ (sampleEps.get ⟨i, h⟩).guests :=
  playedBy_spec sampleEps
    ("X", { name := "X", episodes := [0, 1], firstIdx := 0, lastIdx := 1,
            guests := ["A", "B"] }) (by decide) "B"

/-- The substring scan succeeds exactly when the list splits around the
needle. -/
theorem containsSeq_iff (sub : List Char) :
    ∀ cs, containsSeq sub cs = true ↔ ∃ pre post, cs = pre ++ sub ++ post := by
  intro cs
  induction cs with
  | nil =>
    rw [containsSeq, Bool.or_false, startsWithSeq_iff]
    constructor
    · rintro ⟨post, h⟩
      exact ⟨[], post, by simpa using h⟩
    · rintro ⟨pre, post, h⟩
      obtain ⟨h1, h2⟩ := List.append_eq_nil.mp h.symm
      obtain ⟨h3, h4⟩ := List.append_eq_nil.mp h1
      exact ⟨post, by rw [h4]; simpa using h2.symm⟩
  | cons c rest ih =>
    rw [containsSeq, Bool.or_eq_true, startsWithSeq_iff, ih]
    constructor
    · rintro (⟨post, h⟩ | ⟨pre, post, h⟩)
      · exact ⟨[], post, by simpa using h⟩
      · exact ⟨c :: pre, post, by simp [h]⟩
    · rintro ⟨pre, post, heq⟩
      cases pre with
      | nil =>
        left
        exact ⟨post, by simpa using heq⟩
      | cons c2 pre2 =>
        right
        injection heq with h1 h2
        exact ⟨pre2, post, h2⟩

/-- The appearances comparator orders by descending appearance count. -/
theorem entityLe_appearances (a b : EntityRec) :
    entityLe .appearances a b ↔ b.episodes.length ≤ a.episodes.length := by
  simp only [entityLe, entityCmp]
  omega

/-- The first-appearance comparator orders by ascending `firstIdx`. -/
theorem entityLe_first (a b : EntityRec) :
    entityLe .first a b ↔ a.firstIdx ≤ b.firstIdx := by
  simp only [entityLe, entityCmp]
  omega

/-- The recency comparator orders by descending `lastIdx`. -/
theorem entityLe_last (a b : EntityRec) :
    entityLe .last a b ↔ b.lastIdx ≤ a.lastIdx := by
  simp only [entityLe, entityCmp]
  omega

/-- The name comparator orders by ascending name. -/
theorem entityLe_name (a b : EntityRec) :
    entityLe .name a b ↔ a.name ≤ b.name := by
  simp only [entityLe, entityCmp, localeCompare]
  split_ifs with h1 h2
  · simp [le_of_lt h1]
  · constructor
    · intro h
      exact absurd h (by norm_num)
    · intro h
      exact absurd (lt_of_le_of_lt h h2) (lt_irrefl a.name)
  · have : a.name = b.name := le_antisymm (le_of_not_lt h2) (le_of_not_lt h1)
    simp [this]

/-- The conditional filter of the query engine is the unconditional filter
by the effective search predicate. -/
theorem filter_matchesSearch (sq : String) (l : List EntityRec) :
    (if sq ≠ "" then l.filter (nameMatches sq) else l) = l.filter (matchesSearch sq) := by
  by_cases h : sq = ""
  · subst h
    have htrue : matchesSearch "" = fun _ => true := by
      funext e
      simp [matchesSearch]
    simp [htrue]
  · rw [if_pos h]
    congr 1
    funext e
    simp [matchesSearch, h]

/-- The query engine is the stable sort of the filtered entity list. -/
theorem sortedEntities_eq (gm : List (String × EntityRec)) (cm : List (String × CharRec))
    (kind : EntityKind) (sq : String) (sk : SortKey) :
    sortedEntities gm cm kind sq sk =
      ((baseEntities gm cm kind).filter (matchesSearch sq)).insertionSort (entityLe sk) := by
  cases kind <;> simp only [sortedEntities, baseEntities] <;> rw [filter_matchesSearch]

/-- Claim C7: the Entity Query Engine returns exactly the entities of the
selected kind whose names match the search (all of them when it is empty),
ordered per the sort key — descending appearance count, descending
`lastIdx`, ascending `firstIdx`, or ascending name — and on the sample
corpus the mostAppearances query returns `A` before `B` while searching
`b` returns only `B`. -/
theorem entityQuery_spec :
    (∀ (gm : List (String × EntityRec)) (cm : List (String × CharRec))
        (kind : EntityKind) (sq : String) (sk : SortKey),
      (sortedEntities gm cm kind sq sk).Perm
        ((baseEntities gm cm kind).filter (matchesSearch sq))) ∧
    (∀ (sq : String) (e : EntityRec),
      matchesSearch sq e = true ↔
        (sq = "" ∨ ∃ pre post,
          e.name.toList.map Char.toLower = pre ++ sq.toList.map Char.toLower ++ post)) ∧
    (∀ (gm : List (String × EntityRec)) (cm : List (String × CharRec))
        (kind : EntityKind) (sq : String),
      List.Pairwise (fun a b : EntityRec => b.episodes.length ≤ a.episodes.length)
        (sortedEntities gm cm kind sq .appearances) ∧
      List.Pairwise (fun a b : EntityRec => b.lastIdx ≤ a.lastIdx)
        (sortedEntities gm cm kind sq .last) ∧
      List.Pairwise (fun a b : EntityRec => a.firstIdx ≤ b.firstIdx)
        (sortedEntities gm cm kind sq .first) ∧
      List.Pairwise (fun a b : EntityRec => a.name ≤ b.name)
        (sortedEntities gm cm kind sq .name)) ∧
    (sortedEntities (buildGuestMap sampleEps) (buildCharacterMap sampleEps)
        .guest "" .appearances).map (fun e => e.name) = ["A", "B"] ∧
    (sortedEntities (buildGuestMap sampleEps) (buildCharacterMap sampleEps)
        .guest "b" .appearances).map (fun e => e.name) = ["B"] := by
  refine ⟨?_, ?_, ?_, by decide, by decide⟩
  · intro gm cm kind sq sk
    rw [sortedEntities_eq]
    exact List.perm_insertionSort (entityLe sk) _
  · intro sq e
    rw [matchesSearch, Bool.or_eq_true, beq_iff_eq, nameMatches, containsSeq_iff]
  · intro gm cm kind sq
    refine ⟨?_, ?_, ?_, ?_⟩
    · haveI : IsTotal EntityRec (entityLe .appearances) :=
        ⟨fun a b => (Nat.le_total b.episodes.length a.episodes.length).imp
          (entityLe_appearances a b).mpr (entityLe_appearances b a).mpr⟩
      haveI : IsTrans EntityRec (entityLe .appearances) :=
        ⟨fun a b c h1 h2 => (entityLe_appearances a c).mpr
          (le_trans ((entityLe_appearances b c).mp h2) ((entityLe_appearances a b).mp h1))⟩
      rw [sortedEntities_eq]
      exact (List.sorted_insertionSort (entityLe .appearances) _).imp
        (fun h => (entityLe_appearances _ _).mp h)
    · haveI : IsTotal EntityRec (entityLe .last) :=
        ⟨fun a b => (Nat.le_total b.lastIdx a.lastIdx).imp
          (entityLe_last a b).mpr (entityLe_last b a).mpr⟩
      haveI : IsTrans EntityRec (entityLe .last) :=
        ⟨fun a b c h1 h2 => (entityLe_last a c).mpr
          (le_trans ((entityLe_last b c).mp h2) ((entityLe_last a b).mp h1))⟩
      rw [sortedEntities_eq]
      exact (List.sorted_insertionSort (entityLe .last) _).imp
        (fun h => (entityLe_last _ _).mp h)
    · haveI : IsTotal EntityRec (entityLe .first) :=
        ⟨fun a b => (Nat.le_total a.firstIdx b.firstIdx).imp
          (entityLe_first a b).mpr (entityLe_first b a).mpr⟩
      haveI : IsTrans EntityRec (entityLe .first) :=
        ⟨fun a b c h1 h2 => (entityLe_first a c).mpr
          (le_trans ((entityLe_first a b).mp h1) ((entityLe_first b c).mp h2))⟩
      rw [sortedEntities_eq]
      exact (List.sorted_insertionSort (entityLe .first) _).imp
        (fun h => (entityLe_first _ _).mp h)
    · haveI : IsTotal EntityRec (entityLe .name) :=
        ⟨fun a b => (le_total a.name b.name).imp
          (entityLe_name a b).mpr (entityLe_name b a).mpr⟩
      haveI : IsTrans EntityRec (entityLe .name) :=
        ⟨fun a b c h1 h2 => (entityLe_name a c).mpr
          (le_trans ((entityLe_name a b).mp h1) ((entityLe_name b c).mp h2))⟩
      rw [sortedEntities_eq]
      exact (List.sorted_insertionSort (entityLe .name) _).imp
        (fun h => (entityLe_name _ _).mp h)

/-- The `maxCharactersPerGuest` component of the statistics fold only sees
episodes with at least one guest. -/
theorem statsFold_maxCPG :
    ∀ (eps : List Episode) (s : AggStats),
      (eps.foldl statsStep s).maxCharactersPerGuest =
        ((eps.filter fun e => 0 < e.num_guests).foldl
          (fun q e => q.jsMax e.characters_per_guest) s.maxCharactersPerGuest) := by
  intro eps
  induction eps with
  | nil => intro s; rfl
  | cons ep rest ih =>
    intro s
    rw [List.foldl_cons, ih]
    by_cases hg : 0 < ep.num_guests
    · rw [List.filter_cons_of_pos (by simpa using hg), List.foldl_cons]
      have hstep : (statsStep s ep).maxCharactersPerGuest =
          s.maxCharactersPerGuest.jsMax ep.characters_per_guest := by
        simp [statsStep, hg]
      rw [hstep]
    · rw [List.filter_cons_of_neg (by simpa using hg)]
      have hstep : (statsStep s ep).maxCharactersPerGuest = s.maxCharactersPerGuest := by
        simp [statsStep, hg]
      rw [hstep]

/-- Claim C4: `maxCharactersPerGuest` is computed only over episodes with at
least one guest — splicing a zero-guest episode into any corpus does not
change it — and a normalized zero-guest episode's `charactersPerGuest` is a
non-finite value, never the rational 0, so the chars-per-guest color scaling
gives such an episode a lightness different from that of a genuine ratio 0
whenever the scale maximum is a nonzero rational. -/
theorem statsMaxCPG_spec (pd : String → Option Int) (raws : List RawEpisode) :
    ((computeMaxStats (normalizeEpisodes pd raws)).maxCharactersPerGuest =
      (((normalizeEpisodes pd raws).filter fun e => 0 < e.num_guests).foldl
        (fun q e => q.jsMax e.characters_per_guest) (.fin 0))) ∧
    (∀ (l1 l2 : List Episode) (ep : Episode), ep.num_guests = 0 →
      (computeMaxStats (l1 ++ ep :: l2)).maxCharactersPerGuest =
        (computeMaxStats (l1 ++ l2)).maxCharactersPerGuest) ∧
    (∀ ep ∈ normalizeEpisodes pd raws, ep.num_guests = 0 →
      (ep.characters_per_guest = JSNum.nan ∨ ep.characters_per_guest = JSNum.inf) ∧
      ep.characters_per_guest ≠ JSNum.fin 0 ∧
      (∀ (stats : AggStats) (q : ℚ), stats.maxCharactersPerGuest = .fin q → q ≠ 0 →
        cellBaseLightness .charsPerGuest ep stats ≠
          getEpisodeBaseColor (.fin 0) stats.maxCharactersPerGuest)) := by
  refine ⟨statsFold_maxCPG (normalizeEpisodes pd raws) _, ?_, ?_⟩
  · intro l1 l2 ep h
    rw [computeMaxStats, computeMaxStats, statsFold_maxCPG, statsFold_maxCPG]
    rw [List.filter_append, List.filter_append, List.filter_cons_of_neg (by simp [h])]
  · intro ep hep h0
    have hshape : ep.characters_per_guest = JSNum.nan ∨ ep.characters_per_guest = JSNum.inf := by
      rw [normalizeEpisodes, List.mem_map] at hep
      obtain ⟨p, _, rfl⟩ := hep
      have hg : p.2.guests.length = 0 := h0
      by_cases hc : p.2.characters.length = 0
      · exact Or.inl (by simp [enrich, jsDivNat, hg, hc])
      · exact Or.inr (by simp [enrich, jsDivNat, hg, hc])
    refine ⟨hshape, ?_, ?_⟩
    · rcases hshape with hv | hv <;> rw [hv] <;> simp
    · intro stats q hq hq0
      rw [cellBaseLightness, hq]
      have hne : (JSNum.fin q) ≠ JSNum.fin 0 := by simpa using hq0
      rw [getEpisodeBaseColor, getEpisodeBaseColor, if_neg hne, if_neg hne]
      have hrhs : (JSNum.fin 85).sub (((JSNum.fin 0).div (.fin q)).mul (.fin 40)) =
          JSNum.fin 85 := by
        simp [JSNum.div, JSNum.mul, JSNum.sub, hq0]
      rw [hrhs]
      rcases hshape with hv | hv
      · rw [hv]
        simp [JSNum.div, JSNum.mul, JSNum.sub]
      · rw [hv]
        rcases lt_or_gt_of_ne hq0 with hlt | hgt
        · rw [show (JSNum.inf).div (.fin q) = JSNum.negInf from by simp [JSNum.div, hlt]]
          rw [show (JSNum.negInf).mul (.fin 40) = JSNum.negInf from by
            simp [JSNum.mul]]
          simp [JSNum.sub]
        · rw [show (JSNum.inf).div (.fin q) = JSNum.inf from by
            simp [JSNum.div, not_lt_of_gt hgt]]
          rw [show (JSNum.inf).mul (.fin 40) = JSNum.inf from by
            simp [JSNum.mul]]
          simp [JSNum.sub]

/-- Witness for `statsMaxCPG_spec`: the zero-guest episode `C` of the
sample corpus has `charactersPerGuest = Infinity`, not 0, and its
chars-per-guest cell lightness differs from the lightness of ratio 0. -/
theorem statsMaxCPG_spec_witness :
    ((⟨"C", some "3", 50, [], ["c"], none⟩ : Ep0).title = "C") ∧
    (({ toEp0 := ⟨"C", some "3", 50, [], ["c"], none⟩, idx := 0, num_guests := 0,
        num_characters := 1, characters_per_guest := .inf } : Episode).characters_per_guest
      ≠ JSNum.fin 0) ∧
    cellBaseLightness .charsPerGuest
        ({ toEp0 := ⟨"C", some "3", 50, [], ["c"], none⟩, idx := 0, num_guests := 0,
           num_characters := 1, characters_per_guest := .inf } : Episode)
        { maxGuests := 1, maxCharacters := 1, maxCharactersPerGuest := .fin 1 } ≠
      getEpisodeBaseColor (.fin 0)
        ({ maxGuests := 1, maxCharacters := 1,
           maxCharactersPerGuest := .fin 1 } : AggStats).maxCharactersPerGuest := by
  have h := (statsMaxCPG_spec samplePd sampleRaws).2.2
    ({ toEp0 := ⟨"C", some "3", 50, [], ["c"], none⟩, idx := 0, num_guests := 0,
       num_characters := 1, characters_per_guest := .inf } : Episode)
    (by decide) rfl
  exact ⟨rfl, h.2.1, h.2.2 _ 1 rfl (by norm_num)⟩
